import Mathlib

/-!
Shallow embedding of the core data structures of the CUT repository
(cut::MinHeap from src/algo/minheap.cpp and the cut::AdjacencyList /
cut::CompatAdjacencyList family from src/algo/adjlist), together with
theorems settling the specification claims about them.

Modelling conventions:
* C++ `double` keys are modelled as `ℚ` (the heap only negates, adds,
  subtracts and compares keys; no rounding behaviour is relevant to the
  claims).
* C++ `size_t` indices are modelled as `ℕ`, C++ `int` values and indices
  as `ℤ`.
* The error-signalling macros (CUTCheckLess / CUTCheckGEQ / CUTCheckGreater
  raising cut::OutOfBoundError, CUTAssert raising cut::AssertionError) are
  modelled with `Except CutErr`; since every check in the source precedes
  any mutation, an error result carries no state.
* The only loop that can diverge (`MinHeap::MoveDown`) is modelled with
  explicit fuel returning `Option`; `none` means the loop did not finish
  within the given fuel.  `MinHeap::MoveUp` provably terminates (its index
  strictly decreases), so it is given sufficient fuel at the call site and
  a fuel-irrelevance lemma justifies the choice.
-/

set_option maxHeartbeats 1000000

/-- The two error kinds surfaced by the CUT core: cut::OutOfBoundError
(raised by the CUTCheck* bound macros) and cut::AssertionError (raised by
CUTAssert). -/
inductive CutErr where
  | outOfRange  : CutErr
  | assertFail  : CutErr
deriving DecidableEq

instance exceptDecEq {ε α : Type} [DecidableEq ε] [DecidableEq α] :
    DecidableEq (Except ε α)
  | .ok a, .ok b =>
    if h : a = b then isTrue (by rw [h])
    else isFalse (fun hx => h (Except.ok.inj hx))
  | .ok _, .error _ => isFalse (fun hx => Except.noConfusion hx)
  | .error _, .ok _ => isFalse (fun hx => Except.noConfusion hx)
  | .error e, .error f =>
    if h : e = f then isTrue (by rw [h])
    else isFalse (fun hx => h (Except.error.inj hx))

namespace CutHeap

/-- State of a cut::MinHeap.  `m_Nodes` (a vector of (double key, size_t
element-id) pairs) is split into the two position-indexed functions `key`
and `eid`; `perm` is `m_Perm` (element-id to position); `sign` is `m_Sign`;
`size` is `m_Nodes.size()`.  Positions `≥ size` carry junk values, exactly
as out-of-range vector slots in the C++ object. -/
structure Heap where
  size : ℕ
  key  : ℕ → ℚ
  eid  : ℕ → ℕ
  perm : ℕ → ℕ
  sign : ℚ

/-- The paired swap performed inside MoveUp/MoveDown:
`std::swap(m_Nodes[a], m_Nodes[b])` followed by
`std::swap(m_Perm[m_Nodes[a].second], m_Perm[m_Nodes[b].second])` (the
node swap first, so the perm swap touches the elements previously stored
at `b` and `a`). -/
def hswap (h : Heap) (a b : ℕ) : Heap :=
  { h with
    key := fun i => if i = a then h.key b else if i = b then h.key a else h.key i
    eid := fun i => if i = a then h.eid b else if i = b then h.eid a else h.eid i
    perm := fun e =>
      if e = h.eid a then h.perm (h.eid b)
      else if e = h.eid b then h.perm (h.eid a)
      else h.perm e }

/-- The loop body of cut::MinHeap::MoveUp, with explicit fuel.  One
iteration: stop when `v = 0`; let `p = v >> 1`; stop when
`m_Nodes[p].first < m_Nodes[v].first`; otherwise swap and continue from
`p`.  The loop provably terminates in at most `v` iterations, so the
fuel (chosen as `v + 1` in `moveUp`) is never exhausted; see
`moveUpF_fuel_irrel`. -/
def moveUpF (h : Heap) (v : ℕ) : ℕ → Heap
  | 0 => h
  | fuel + 1 =>
    if v = 0 then h
    else
      let p := v / 2
      if h.key p < h.key v then h
      else moveUpF (hswap h p v) p fuel

/-- cut::MinHeap::MoveUp: sift the node of element `e` up from position
`m_Perm[e]`. -/
def moveUp (h : Heap) (e : ℕ) : Heap :=
  moveUpF h (h.perm e) (h.perm e + 1)

/-- The child selection inside cut::MinHeap::MoveDown: starting from
`u = 2 * v`, take `u + 1` instead when `u + 1 < Size()` and
`m_Nodes[u].first > m_Nodes[u + 1].first`. -/
def pickChild (h : Heap) (v : ℕ) : ℕ :=
  if 2 * v + 1 < h.size ∧ h.key (2 * v + 1) < h.key (2 * v)
  then 2 * v + 1 else 2 * v

/-- The loop of cut::MinHeap::MoveDown with explicit fuel (`none` =
divergence within the given fuel).  One iteration: `u := 2 * v`; stop when
`u ≥ size`; adjust `u` by `pickChild`; stop when
`m_Nodes[u].first > m_Nodes[v].first`; otherwise swap `v` and `u` and
continue from `u`. -/
def moveDownAux (h : Heap) (v : ℕ) : ℕ → Option Heap
  | 0 => none
  | fuel + 1 =>
    if 2 * v ≥ h.size then some h
    else
      if h.key v < h.key (pickChild h v) then some h
      else moveDownAux (hswap h v (pickChild h v)) (pickChild h v) fuel

/-- cut::MinHeap::FindMin: requires `Size() > 0`, returns
`(m_Sign * m_Nodes[0].first, m_Nodes[0].second)`. -/
def findMin (h : Heap) : Except CutErr (ℚ × ℕ) :=
  if 0 < h.size then .ok (h.sign * h.key 0, h.eid 0) else .error .outOfRange

/-- cut::MinHeap::GetKey: requires `Element < Size()`, returns
`m_Sign * m_Nodes[m_Perm[Element]].first`. -/
def getKey (h : Heap) (e : ℕ) : Except CutErr ℚ :=
  if e < h.size then .ok (h.sign * h.key (h.perm e)) else .error .outOfRange

/-- cut::MinHeap::Size. -/
def hsize (h : Heap) : ℕ := h.size

/-- The key write `m_Nodes[v].first := q` shared by Increase/DecreaseKey. -/
def setKeyAt (h : Heap) (v : ℕ) (q : ℚ) : Heap :=
  { h with key := fun i => if i = v then q else h.key i }

/-- cut::MinHeap::DecreaseKey: bound-check the element, subtract
`m_Sign * Decrement` from the stored key, then sift up (min-heap) or down
(max-heap).  The outer `Except` is the bound check, the inner `Option` is
the fuel of the sift-down loop. -/
def decreaseKey (h : Heap) (e : ℕ) (dec : ℚ) (fuel : ℕ) :
    Except CutErr (Option Heap) :=
  if e < h.size then
    let v := h.perm e
    let h1 := setKeyAt h v (h.key v - h.sign * dec)
    .ok (if 0 < h.sign then some (moveUp h1 e)
         else moveDownAux h1 (h1.perm e) fuel)
  else .error .outOfRange

/-- cut::MinHeap::IncreaseKey: bound-check the element, add
`m_Sign * Increment` to the stored key, then sift down (min-heap) or up
(max-heap). -/
def increaseKey (h : Heap) (e : ℕ) (inc : ℚ) (fuel : ℕ) :
    Except CutErr (Option Heap) :=
  if e < h.size then
    let v := h.perm e
    let h1 := setKeyAt h v (h.key v + h.sign * inc)
    .ok (if 0 < h.sign then moveDownAux h1 (h1.perm e) fuel
         else some (moveUp h1 e))
  else .error .outOfRange

/-- cut::MinHeap::Insert: append `m_Nodes.size()` to `m_Perm`, append the
pair `(m_Sign * Key, m_Nodes.size())` to `m_Nodes`, then MoveUp the new
element `m_Nodes.size() - 1`. -/
def insertKey (h : Heap) (k : ℚ) : Heap :=
  let n := h.size
  let h1 : Heap :=
    { size := n + 1
      key := fun i => if i = n then h.sign * k else h.key i
      eid := fun i => if i = n then n else h.eid i
      perm := fun e => if e = n then n else h.perm e
      sign := h.sign }
  moveUp h1 n

/-- The cut::MinHeap constructor: set `m_Sign` (−1 for a max-heap, 1
otherwise) and Insert the keys one by one. -/
def mkHeap (keys : List ℚ) (isMax : Bool) : Heap :=
  keys.foldl insertKey
    { size := 0, key := fun _ => 0, eid := fun _ => 0, perm := fun _ => 0
      sign := if isMax then -1 else 1 }

/-- Representation invariant of the heap: `perm` and the element ids
stored in `m_Nodes` are mutually inverse on the positions below `size`. -/
def WF (h : Heap) : Prop :=
  (∀ e, e < h.size → h.perm e < h.size ∧ h.eid (h.perm e) = e) ∧
  (∀ v, v < h.size → h.eid v < h.size ∧ h.perm (h.eid v) = v)

/-- The heap property on stored keys, in the layout the code actually
uses: the parent of position `v ≥ 1` is position `v / 2`. -/
def HeapProp (h : Heap) : Prop :=
  ∀ v, 1 ≤ v → v < h.size → h.key (v / 2) ≤ h.key v

/-- The precondition of the sift-up loop: the heap property holds at every
edge not pointing into `v`, and (when `v` is not the root) the parent of
`v` already dominates the children of `v`. -/
def AlmostUp (h : Heap) (v : ℕ) : Prop :=
  (∀ w, 1 ≤ w → w < h.size → w ≠ v → h.key (w / 2) ≤ h.key w) ∧
  (1 ≤ v → ∀ w, 1 ≤ w → w < h.size → w / 2 = v → h.key (v / 2) ≤ h.key w)

/-- The precondition of the sift-down loop: the heap property holds at
every edge not leaving `v`, and (when `v` is not the root) the parent of
`v` already dominates the children of `v`. -/
def AlmostDown (h : Heap) (v : ℕ) : Prop :=
  (∀ w, 1 ≤ w → w < h.size → w / 2 ≠ v → h.key (w / 2) ≤ h.key w) ∧
  (1 ≤ v → ∀ w, 1 ≤ w → w < h.size → w / 2 = v → h.key (v / 2) ≤ h.key w)

/-- The heap states the program can reach: built by the constructor, then
transformed by any sequence of DecreaseKey / IncreaseKey calls that are
given a non-negative delta (the documented contract of those calls) and
return (inner `some`). -/
inductive Reachable : Heap → Prop where
  | build : ∀ (keys : List ℚ) (isMax : Bool), Reachable (mkHeap keys isMax)
  | dec : ∀ (h : Heap) (e : ℕ) (d : ℚ) (fuel : ℕ) (h2 : Heap), Reachable h →
      0 ≤ d → decreaseKey h e d fuel = .ok (some h2) → Reachable h2
  | inc : ∀ (h : Heap) (e : ℕ) (d : ℚ) (fuel : ℕ) (h2 : Heap), Reachable h →
      0 ≤ d → increaseKey h e d fuel = .ok (some h2) → Reachable h2

end CutHeap

namespace CutAdj

/-- State of a cut::AdjacencyList: `m_Adj` (vector of vectors of int) and
the cached `m_NConnections` (int). -/
structure AdjacencyList where
  adj : List (List ℤ)
  nConnections : ℤ
deriving DecidableEq

/-- cut::AdjacencyList::NumNodes: `m_Adj.size()`. -/
def numNodesZ (A : AdjacencyList) : ℤ := A.adj.length

/-- cut::AdjacencyList::NumConnections: the cached `m_NConnections`. -/
def numConnectionsZ (A : AdjacencyList) : ℤ := A.nConnections

/-- The vector `m_Adj[i]` (rows are only read at valid indices). -/
def rowOf (A : AdjacencyList) (i : ℤ) : List ℤ := A.adj.getD i.toNat []

/-- cut::AdjacencyList::NumAdjacents: CUTCheckGEQ(i, 0) and
CUTCheckLess(i, NumNodes()), then `m_Adj[i].size()`. -/
def numAdjacentsE (A : AdjacencyList) (i : ℤ) : Except CutErr ℤ :=
  if 0 ≤ i ∧ i < numNodesZ A then .ok ((rowOf A i).length : ℤ)
  else .error .outOfRange

/-- cut::AdjacencyList::GetAdjacent: bound checks on `i` and `idx`, then
`m_Adj[i][idx]`. -/
def getAdjacentE (A : AdjacencyList) (i idx : ℤ) : Except CutErr ℤ :=
  if 0 ≤ i ∧ i < numNodesZ A then
    if 0 ≤ idx ∧ idx < ((rowOf A i).length : ℤ) then
      .ok ((rowOf A i).getD idx.toNat 0)
    else .error .outOfRange
  else .error .outOfRange

/-- cut::AdjacencyList::AddNode: `m_Adj.emplace_back()`. -/
def addNode (A : AdjacencyList) : AdjacencyList :=
  { A with adj := A.adj ++ [[]] }

/-- cut::AdjacencyList::InsertNode: bound checks, then
`m_Adj.emplace(m_Adj.begin() + i)`. -/
def insertNode (A : AdjacencyList) (i : ℤ) : Except CutErr AdjacencyList :=
  if 0 ≤ i ∧ i < numNodesZ A then
    .ok { A with adj := A.adj.take i.toNat ++ [] :: A.adj.drop i.toNat }
  else .error .outOfRange

/-- cut::AdjacencyList::SwapNodes: bound checks, then
`std::swap(m_Adj[i], m_Adj[j])`. -/
def swapNodes (A : AdjacencyList) (i j : ℤ) : Except CutErr AdjacencyList :=
  if 0 ≤ i ∧ i < numNodesZ A then
    if 0 ≤ j ∧ j < numNodesZ A then
      .ok { A with adj := (A.adj.set i.toNat (rowOf A j)).set j.toNat (rowOf A i) }
    else .error .outOfRange
  else .error .outOfRange

/-- cut::AdjacencyList::RemoveNode: bound checks, then
`m_Adj.erase(m_Adj.begin() + i)`. -/
def removeNode (A : AdjacencyList) (i : ℤ) : Except CutErr AdjacencyList :=
  if 0 ≤ i ∧ i < numNodesZ A then
    .ok { A with adj := A.adj.take i.toNat ++ A.adj.drop (i.toNat + 1) }
  else .error .outOfRange

/-- cut::AdjacencyList::AddAdjacent: bound checks on `i`, then
CUTAssert that `j` is not already in `m_Adj[i]`, then
`m_Adj[i].emplace_back(j)`. -/
def addAdjacent (A : AdjacencyList) (i j : ℤ) : Except CutErr AdjacencyList :=
  if 0 ≤ i ∧ i < numNodesZ A then
    if j ∈ rowOf A i then .error .assertFail
    else .ok { A with adj := A.adj.set i.toNat (rowOf A i ++ [j]) }
  else .error .outOfRange

/-- cut::AdjacencyList::InsertAdjacent: bound checks on `i`, then on
`idx` against `NumAdjacents(i)` (strictly less), then CUTAssert no
duplicate, then `m_Adj[i].emplace(m_Adj[i].begin() + idx, j)`. -/
def insertAdjacent (A : AdjacencyList) (i j idx : ℤ) :
    Except CutErr AdjacencyList :=
  if 0 ≤ i ∧ i < numNodesZ A then
    if 0 ≤ idx ∧ idx < ((rowOf A i).length : ℤ) then
      if j ∈ rowOf A i then .error .assertFail
      else .ok { A with adj := (A.adj.set i.toNat
        ((rowOf A i).take idx.toNat ++ j :: (rowOf A i).drop idx.toNat)) }
    else .error .outOfRange
  else .error .outOfRange

/-- cut::AdjacencyList::UpdateAdjacent: bound checks on `i` and `idx`;
no-op if the slot already holds `j`; otherwise CUTAssert no duplicate and
write `m_Adj[i][idx] = j`. -/
def updateAdjacent (A : AdjacencyList) (i j idx : ℤ) :
    Except CutErr AdjacencyList :=
  if 0 ≤ i ∧ i < numNodesZ A then
    if 0 ≤ idx ∧ idx < ((rowOf A i).length : ℤ) then
      if (rowOf A i).getD idx.toNat 0 = j then .ok A
      else if j ∈ rowOf A i then .error .assertFail
      else .ok { A with adj := A.adj.set i.toNat ((rowOf A i).set idx.toNat j) }
    else .error .outOfRange
  else .error .outOfRange

/-- The `std::find` + write of cut::AdjacencyList::ReplaceAdjacent:
replace the first occurrence of `j` by `k`. -/
def replaceFirst : List ℤ → ℤ → ℤ → List ℤ
  | [], _, _ => []
  | x :: xs, j, k => if x = j then k :: xs else x :: replaceFirst xs j k

/-- cut::AdjacencyList::ReplaceAdjacent: bound check on `i`, CUTAssert `k`
not present, find `j`, CUTAssert it was found, overwrite it with `k`. -/
def replaceAdjacent (A : AdjacencyList) (i j k : ℤ) :
    Except CutErr AdjacencyList :=
  if 0 ≤ i ∧ i < numNodesZ A then
    if k ∈ rowOf A i then .error .assertFail
    else if j ∈ rowOf A i then
      .ok { A with adj := A.adj.set i.toNat (replaceFirst (rowOf A i) j k) }
    else .error .assertFail
  else .error .outOfRange

/-- cut::AdjacencyList::RemoveAdjacent: bound checks, then
`m_Adj[i].erase(m_Adj[i].begin() + idx)`. -/
def removeAdjacent (A : AdjacencyList) (i idx : ℤ) :
    Except CutErr AdjacencyList :=
  if 0 ≤ i ∧ i < numNodesZ A then
    if 0 ≤ idx ∧ idx < ((rowOf A i).length : ℤ) then
      .ok { A with adj := (A.adj.set i.toNat
        ((rowOf A i).take idx.toNat ++ (rowOf A i).drop (idx.toNat + 1))) }
    else .error .outOfRange
  else .error .outOfRange

/-- The cut::AdjacencyList(int N) constructor: `m_Adj.resize(N)`,
`m_NConnections = 0`. -/
def fromN (N : ℤ) : AdjacencyList :=
  { adj := List.replicate N.toNat [], nConnections := 0 }

/-- One step of the bulk-construction loop: `AddAdjacent(c.first,
c.second)` inside `try { ... } catch (...) { }` — failures are swallowed
and leave the list unchanged. -/
def addSwallow (A : AdjacencyList) (c : ℤ × ℤ) : AdjacencyList :=
  match addAdjacent A c.1 c.2 with
  | .ok A2 => A2
  | .error _ => A

/-- The cut::AdjacencyList(Connections) constructor: `m_NConnections` is
the raw pair count, the node count is `max(c.first) + 1` (at least 0),
and each pair is inserted through AddAdjacent with exceptions swallowed. -/
def fromConnections (conns : List (ℤ × ℤ)) : AdjacencyList :=
  let nNodes : ℤ := conns.foldl (fun m c => max m (c.1 + 1)) 0
  if nNodes = 0 then { adj := [], nConnections := (conns.length : ℤ) }
  else conns.foldl addSwallow
    { adj := List.replicate nNodes.toNat [], nConnections := (conns.length : ℤ) }

/-- The abstract cut::BaseAdjacencyList capability as seen by the generic
conversion loops: the four virtual accessors.  The accessor functions are
totalised with the in-range formulas; the conversion loops only ever call
them in range. -/
structure AdjSource where
  numNodes : ℤ
  numConnections : ℤ
  numAdjacents : ℤ → ℤ
  getAdjacent : ℤ → ℤ → ℤ

/-- A cut::AdjacencyList viewed through the abstract capability. -/
def asSource (A : AdjacencyList) : AdjSource :=
  { numNodes := numNodesZ A
    numConnections := A.nConnections
    numAdjacents := fun i => ((rowOf A i).length : ℤ)
    getAdjacent := fun i idx => (rowOf A i).getD idx.toNat 0 }

/-- The inner loop of the generic conversion: read the `NumAdjacents i`
adjacents of node `i` from the source in order. -/
def walkRow (S : AdjSource) (i : ℤ) : List ℤ :=
  (List.range (S.numAdjacents i).toNat).map (fun j : ℕ => S.getAdjacent i (j : ℤ))

/-- The call to resize on the row vector (std::vector::resize semantics):
truncate or pad with empty rows. -/
def resizeRows (rows : List (List ℤ)) (n : ℕ) : List (List ℤ) :=
  rows.take n ++ List.replicate (n - rows.length) []

/-- The generic (abstract-interface) body shared by the
cut::AdjacencyList copy constructor and copy assignment: set
`m_NConnections = AL.NumConnections()`, `m_Adj.resize(AL.NumNodes())`,
then for each node push all the adjacents of the source onto the (possibly
non-empty) row `m_Adj[i]`. -/
def genericFill (A : AdjacencyList) (S : AdjSource) : AdjacencyList :=
  { adj := (List.range S.numNodes.toNat).map
      (fun i : ℕ => (resizeRows A.adj S.numNodes.toNat).getD i [] ++ walkRow S (i : ℤ))
    nConnections := S.numConnections }

/-- The cut::AdjacencyList copy constructor on a source that is NOT a
cut::AdjacencyList (the dynamic_cast throws, the catch discards it): only
the generic walk runs, on initially empty members. -/
def ofSource (S : AdjSource) : AdjacencyList :=
  genericFill { adj := [], nConnections := 0 } S

/-- The cut::AdjacencyList copy constructor on a source that IS a
cut::AdjacencyList: the dynamic_cast fast path copies `m_Adj` and
`m_NConnections`, and then — the constructor does not return — the
generic walk runs as well, appending every row of the source onto the
already-copied rows. -/
def copyCtorSame (src : AdjacencyList) : AdjacencyList :=
  genericFill { adj := src.adj, nConnections := src.nConnections } (asSource src)

/-- State of a cut::CompatAdjacencyList: the flat `m_Adj` and the offset
vector `m_Idx`. -/
structure CompatAdjacencyList where
  adj : List ℤ
  idx : List ℤ
deriving DecidableEq

/-- Offset prefix sums: the generic CompatAdjacencyList construction loop
computes `m_Idx[i + 1] = m_Idx[i] + AL.NumAdjacents(i)` starting from the
zero-initialised vector, so `m_Idx[i]` is the sum of the adjacent counts
that the source reports for the nodes before `i`. -/
def lenSumZ (S : AdjSource) (i : ℕ) : ℤ :=
  ((List.range i).map (fun t : ℕ => S.numAdjacents (t : ℤ))).sum

/-- The generic (abstract-interface) path of the CompatAdjacencyList copy
constructor: offsets are the prefix sums of the per-node adjacent counts
and `m_Adj` is the concatenation of the rows of the source in node order. -/
def compatOfSource (S : AdjSource) : CompatAdjacencyList :=
  { adj := ((List.range S.numNodes.toNat).map (fun i : ℕ => walkRow S (i : ℤ))).flatten
    idx := (List.range (S.numNodes.toNat + 1)).map (fun i : ℕ => lenSumZ S i) }

/-- A cut::CompatAdjacencyList viewed through the abstract capability:
`NumNodes() = m_Idx.size() - 1`, `NumConnections() = m_Adj.size()`,
`NumAdjacents(i) = m_Idx[i+1] - m_Idx[i]`,
`GetAdjacent(i, idx) = m_Adj[m_Idx[i] + idx]`. -/
def compatAsSource (C : CompatAdjacencyList) : AdjSource :=
  { numNodes := (C.idx.length : ℤ) - 1
    numConnections := (C.adj.length : ℤ)
    numAdjacents := fun i => C.idx.getD (i.toNat + 1) 0 - C.idx.getD i.toNat 0
    getAdjacent := fun i idx => C.adj.getD (C.idx.getD i.toNat 0 + idx).toNat 0 }

/-- The actual total number of stored connections (what the spec says
NumConnections() returns). -/
def totalAdjacents (A : AdjacencyList) : ℕ := (A.adj.map List.length).sum

/-- Spec-side description used by C8: the distinct values of a list in
first-occurrence order. -/
def firstOccur (l : List ℤ) : List ℤ :=
  l.foldl (fun acc x => if x ∈ acc then acc else acc ++ [x]) []

/-- Natural-number counterpart of the offset prefix sums, used to index
the flattened row list. -/
def offs (rows : List (List ℤ)) (i : ℕ) : ℕ :=
  ((List.range i).map (fun t => (rows.getD t []).length)).sum

/-- The round trip of C6: a mutable list, converted to a compact list
through the abstract capability, converted back to a mutable list. -/
def roundTrip (M : AdjacencyList) : AdjacencyList :=
  ofSource (compatAsSource (compatOfSource (asSource M)))

end CutAdj

namespace CutHeap

theorem hswap_size (h : Heap) (a b : ℕ) : (hswap h a b).size = h.size := rfl

theorem hswap_sign (h : Heap) (a b : ℕ) : (hswap h a b).sign = h.sign := rfl

theorem hswap_key (h : Heap) (a b i : ℕ) :
    (hswap h a b).key i =
      if i = a then h.key b else if i = b then h.key a else h.key i := rfl

theorem hswap_eid (h : Heap) (a b i : ℕ) :
    (hswap h a b).eid i =
      if i = a then h.eid b else if i = b then h.eid a else h.eid i := rfl

theorem hswap_perm (h : Heap) (a b e : ℕ) :
    (hswap h a b).perm e =
      if e = h.eid a then h.perm (h.eid b)
      else if e = h.eid b then h.perm (h.eid a)
      else h.perm e := rfl

theorem hswap_WF {h : Heap} {a b : ℕ} (ha : a < h.size) (hb : b < h.size)
    (hwf : WF h) : WF (hswap h a b) := by
  obtain ⟨hpe, hvp⟩ := hwf
  have hida := hvp a ha
  have hidb := hvp b hb
  constructor
  · intro e he
    rw [hswap_size] at he
    rw [hswap_size, hswap_perm]
    by_cases hea : e = h.eid a
    · rw [if_pos hea, hidb.2, hswap_eid]
      refine ⟨hb, ?_⟩
      by_cases hba : b = a
      · rw [if_pos hba, hba, hea]
      · rw [if_neg hba, if_pos rfl, hea]
    · rw [if_neg hea]
      by_cases heb : e = h.eid b
      · rw [if_pos heb, hida.2, hswap_eid, if_pos rfl, heb]
        exact ⟨ha, rfl⟩
      · rw [if_neg heb]
        have hp := hpe e he
        refine ⟨hp.1, ?_⟩
        rw [hswap_eid]
        have hpa : h.perm e ≠ a := by
          intro hx
          exact hea (by rw [← hp.2, hx])
        have hpb : h.perm e ≠ b := by
          intro hx
          exact heb (by rw [← hp.2, hx])
        rw [if_neg hpa, if_neg hpb, hp.2]
  · intro v hv
    rw [hswap_size] at hv
    rw [hswap_size, hswap_eid]
    by_cases hva : v = a
    · rw [if_pos hva]
      refine ⟨hidb.1, ?_⟩
      rw [hswap_perm]
      by_cases hab : h.eid b = h.eid a
      · rw [if_pos hab, hidb.2, hva]
        rw [← hida.2, ← hab, hidb.2]
      · rw [if_neg hab, if_pos rfl, hida.2, hva]
    · rw [if_neg hva]
      by_cases hvb : v = b
      · rw [if_pos hvb]
        refine ⟨hida.1, ?_⟩
        rw [hswap_perm, if_pos rfl, hidb.2, hvb]
      · rw [if_neg hvb]
        have hi := hvp v hv
        refine ⟨hi.1, ?_⟩
        rw [hswap_perm]
        have hia : h.eid v ≠ h.eid a := by
          intro hx
          exact hva (by rw [← hi.2, hx, hida.2])
        have hib : h.eid v ≠ h.eid b := by
          intro hx
          exact hvb (by rw [← hi.2, hx, hidb.2])
        rw [if_neg hia, if_neg hib, hi.2]

theorem hswap_stored {h : Heap} {a b : ℕ} (ha : a < h.size) (hb : b < h.size)
    (hwf : WF h) (e : ℕ) (he : e < h.size) :
    (hswap h a b).key ((hswap h a b).perm e) = h.key (h.perm e) := by
  obtain ⟨hpe, hvp⟩ := hwf
  have hida := hvp a ha
  have hidb := hvp b hb
  rw [hswap_perm]
  by_cases hea : e = h.eid a
  · rw [if_pos hea, hidb.2, hswap_key, hea, hida.2]
    by_cases hba : b = a
    · rw [if_pos hba, hba]
    · rw [if_neg hba, if_pos rfl]
  · rw [if_neg hea]
    by_cases heb : e = h.eid b
    · rw [if_pos heb, hida.2, hswap_key, if_pos rfl, heb, hidb.2]
    · rw [if_neg heb, hswap_key]
      have hp := hpe e he
      have hpa : h.perm e ≠ a := by
        intro hx
        exact hea (by rw [← hp.2, hx])
      have hpb : h.perm e ≠ b := by
        intro hx
        exact heb (by rw [← hp.2, hx])
      rw [if_neg hpa, if_neg hpb]

theorem hswap_content {h : Heap} (Q : ℚ → ℕ → Prop) (a b : ℕ)
    (ha : a < h.size) (hb : b < h.size)
    (hQ : ∀ v, v < h.size → Q (h.key v) (h.eid v)) :
    ∀ v, v < (hswap h a b).size → Q ((hswap h a b).key v) ((hswap h a b).eid v) := by
  intro v hv
  rw [hswap_size] at hv
  rw [hswap_key, hswap_eid]
  by_cases hva : v = a
  · rw [if_pos hva, if_pos hva]
    exact hQ b hb
  · rw [if_neg hva, if_neg hva]
    by_cases hvb : v = b
    · rw [if_pos hvb, if_pos hvb]
      exact hQ a ha
    · rw [if_neg hvb, if_neg hvb]
      exact hQ v hv

theorem moveUpF_size : ∀ (fuel : ℕ) (h : Heap) (v : ℕ),
    (moveUpF h v fuel).size = h.size := by
  intro fuel
  induction fuel with
  | zero => intro h v; rfl
  | succ fuel ih =>
    intro h v
    simp only [moveUpF]
    split_ifs with h0 hlt
    · rfl
    · rfl
    · rw [ih, hswap_size]

theorem moveUpF_sign : ∀ (fuel : ℕ) (h : Heap) (v : ℕ),
    (moveUpF h v fuel).sign = h.sign := by
  intro fuel
  induction fuel with
  | zero => intro h v; rfl
  | succ fuel ih =>
    intro h v
    simp only [moveUpF]
    split_ifs with h0 hlt
    · rfl
    · rfl
    · rw [ih, hswap_sign]

theorem moveUpF_WF : ∀ (fuel : ℕ) (h : Heap) (v : ℕ),
    v < h.size → WF h → WF (moveUpF h v fuel) := by
  intro fuel
  induction fuel with
  | zero => intro h v _ hwf; exact hwf
  | succ fuel ih =>
    intro h v hv hwf
    simp only [moveUpF]
    split_ifs with h0 hlt
    · exact hwf
    · exact hwf
    · have hp : v / 2 < h.size := lt_of_le_of_lt (Nat.div_le_self v 2) hv
      exact ih _ _ (by rw [hswap_size]; omega) (hswap_WF hp hv hwf)

theorem moveUpF_stored : ∀ (fuel : ℕ) (h : Heap) (v : ℕ),
    v < h.size → WF h → ∀ e, e < h.size →
    (moveUpF h v fuel).key ((moveUpF h v fuel).perm e) = h.key (h.perm e) := by
  intro fuel
  induction fuel with
  | zero => intro h v _ _ e _; rfl
  | succ fuel ih =>
    intro h v hv hwf e he
    simp only [moveUpF]
    split_ifs with h0 hlt
    · rfl
    · rfl
    · have hp : v / 2 < h.size := lt_of_le_of_lt (Nat.div_le_self v 2) hv
      rw [ih _ _ (by rw [hswap_size]; omega) (hswap_WF hp hv hwf) e
            (by rw [hswap_size]; exact he),
          hswap_stored hp hv hwf e he]

theorem moveUpF_content : ∀ (fuel : ℕ) (h : Heap) (v : ℕ) (Q : ℚ → ℕ → Prop),
    v < h.size → (∀ w, w < h.size → Q (h.key w) (h.eid w)) →
    ∀ w, w < (moveUpF h v fuel).size →
      Q ((moveUpF h v fuel).key w) ((moveUpF h v fuel).eid w) := by
  intro fuel
  induction fuel with
  | zero => intro h v Q _ hQ w hw; exact hQ w hw
  | succ fuel ih =>
    intro h v Q hv hQ
    simp only [moveUpF]
    split_ifs with h0 hlt
    · exact hQ
    · exact hQ
    · have hp : v / 2 < h.size := lt_of_le_of_lt (Nat.div_le_self v 2) hv
      exact ih _ _ Q (by rw [hswap_size]; omega)
        (hswap_content Q _ _ hp hv hQ)

theorem moveUpF_fuel_irrel : ∀ (f1 f2 : ℕ) (h : Heap) (v : ℕ),
    v < f1 → v < f2 → moveUpF h v f1 = moveUpF h v f2 := by
  intro f1
  induction f1 with
  | zero => intro f2 h v hv; omega
  | succ f1 ih =>
    intro f2 h v hv1 hv2
    match f2, hv2 with
    | f2 + 1, hv2 =>
      simp only [moveUpF]
      split_ifs with h0 hlt
      · rfl
      · rfl
      · exact ih f2 _ _ (by omega) (by omega)

theorem hswap_almostUp {h : Heap} {v : ℕ} (hv0 : v ≠ 0) (hv : v < h.size)
    (hle : h.key v ≤ h.key (v / 2)) (hAU : AlmostUp h v) :
    AlmostUp (hswap h (v / 2) v) (v / 2) := by
  obtain ⟨hA1, hA2⟩ := hAU
  have hpv : v / 2 < v := Nat.div_lt_self (Nat.pos_of_ne_zero hv0) one_lt_two
  have kp : (hswap h (v / 2) v).key (v / 2) = h.key v := by
    rw [hswap_key, if_pos rfl]
  have kv : (hswap h (v / 2) v).key v = h.key (v / 2) := by
    rw [hswap_key, if_neg (show v ≠ v / 2 by omega), if_pos rfl]
  have ko : ∀ x, x ≠ v / 2 → x ≠ v → (hswap h (v / 2) v).key x = h.key x := by
    intro x h1 h2
    rw [hswap_key, if_neg h1, if_neg h2]
  constructor
  · intro w h1 h2 hwp
    rw [hswap_size] at h2
    by_cases hwv : w = v
    · subst hwv
      rw [kp, kv]
      exact hle
    · have hr : (hswap h (v / 2) v).key w = h.key w := ko w hwp hwv
      by_cases hw2v : w / 2 = v
      · have hl : (hswap h (v / 2) v).key (w / 2) = h.key (v / 2) := by
          rw [hw2v, kv]
        rw [hl, hr]
        exact hA2 (by omega) w h1 h2 hw2v
      · by_cases hw2p : w / 2 = v / 2
        · have hl : (hswap h (v / 2) v).key (w / 2) = h.key v := by
            rw [hw2p, kp]
          rw [hl, hr]
          have hx := hA1 w h1 h2 hwv
          rw [hw2p] at hx
          exact le_trans hle hx
        · have hl : (hswap h (v / 2) v).key (w / 2) = h.key (w / 2) :=
            ko _ hw2p hw2v
          rw [hl, hr]
          exact hA1 w h1 h2 hwv
  · intro hp1 w h1 h2 hw2
    rw [hswap_size] at h2
    have hl : (hswap h (v / 2) v).key (v / 2 / 2) = h.key (v / 2 / 2) :=
      ko _ (by omega) (by omega)
    have hparent : h.key (v / 2 / 2) ≤ h.key (v / 2) :=
      hA1 (v / 2) hp1 (by omega) (by omega)
    rw [hl]
    by_cases hwv : w = v
    · subst hwv
      rw [kv]
      exact hparent
    · have hwp : w ≠ v / 2 := by omega
      have hr : (hswap h (v / 2) v).key w = h.key w := ko w hwp hwv
      rw [hr]
      have hx := hA1 w h1 h2 hwv
      rw [hw2] at hx
      exact le_trans hparent hx

theorem moveUpF_heapProp : ∀ (fuel : ℕ) (h : Heap) (v : ℕ),
    v < fuel → v < h.size → AlmostUp h v → HeapProp (moveUpF h v fuel) := by
  intro fuel
  induction fuel with
  | zero => intro h v hv; omega
  | succ fuel ih =>
    intro h v hvf hv hAU
    simp only [moveUpF]
    split_ifs with h0 hlt
    · intro w h1 h2
      exact hAU.1 w h1 h2 (by omega)
    · intro w h1 h2
      by_cases hwv : w = v
      · subst hwv
        exact le_of_lt hlt
      · exact hAU.1 w h1 h2 hwv
    · have hpv : v / 2 < v := Nat.div_lt_self (Nat.pos_of_ne_zero h0) one_lt_two
      exact ih _ _ (by omega) (by rw [hswap_size]; omega)
        (hswap_almostUp h0 hv (le_of_not_lt hlt) hAU)

theorem pickChild_cases (h : Heap) (v : ℕ) :
    pickChild h v = 2 * v ∨ (pickChild h v = 2 * v + 1 ∧ 2 * v + 1 < h.size) := by
  unfold pickChild
  split_ifs with hc
  · exact Or.inr ⟨rfl, hc.1⟩
  · exact Or.inl rfl

theorem pickChild_lt {h : Heap} {v : ℕ} (hv : 2 * v < h.size) :
    pickChild h v < h.size := by
  rcases pickChild_cases h v with hc | hc
  · omega
  · omega

theorem pickChild_min {h : Heap} {v : ℕ} (s : ℕ)
    (hs : s = 2 * v ∨ (s = 2 * v + 1 ∧ s < h.size)) :
    h.key (pickChild h v) ≤ h.key s := by
  unfold pickChild
  split_ifs with hc
  · rcases hs with hs | hs
    · rw [hs]
      exact le_of_lt hc.2
    · rw [hs.1]
  · rcases hs with hs | hs
    · rw [hs]
    · rw [hs.1]
      rw [not_and_or] at hc
      rcases hc with hc | hc
      · omega
      · exact le_of_not_lt hc

theorem pickChild_div2 (h : Heap) (v : ℕ) : pickChild h v / 2 = v := by
  rcases pickChild_cases h v with hc | hc
  · omega
  · omega

theorem moveDownAux_inv : ∀ (fuel : ℕ) (h : Heap) (v : ℕ) (h2 : Heap),
    v < h.size → WF h → moveDownAux h v fuel = some h2 →
    h2.size = h.size ∧ h2.sign = h.sign ∧ WF h2 ∧
      (∀ e, e < h.size → h2.key (h2.perm e) = h.key (h.perm e)) := by
  intro fuel
  induction fuel with
  | zero =>
    intro h v h2 hv hwf heq
    exact absurd heq (by simp [moveDownAux])
  | succ fuel ih =>
    intro h v h2 hv hwf heq
    simp only [moveDownAux] at heq
    split_ifs at heq with hge hlt
    · cases heq
      exact ⟨rfl, rfl, hwf, fun e _ => rfl⟩
    · cases heq
      exact ⟨rfl, rfl, hwf, fun e _ => rfl⟩
    · have hu : pickChild h v < h.size := pickChild_lt (by omega)
      have hrec := ih (hswap h v (pickChild h v)) (pickChild h v) h2
        (by rw [hswap_size]; exact hu) (hswap_WF hv hu hwf) heq
      refine ⟨by rw [hrec.1, hswap_size], by rw [hrec.2.1, hswap_sign], hrec.2.2.1, ?_⟩
      intro e he
      rw [hrec.2.2.2 e (by rw [hswap_size]; exact he),
          hswap_stored hv hu hwf e he]

theorem hswap_almostDown {h : Heap} {v : ℕ} (hv : v < h.size)
    (hge : 2 * v < h.size)
    (hnlt : ¬ h.key v < h.key (pickChild h v)) (hAD : AlmostDown h v) :
    AlmostDown (hswap h v (pickChild h v)) (pickChild h v) := by
  obtain ⟨hA1, hA2⟩ := hAD
  set u := pickChild h v with hudef
  have hcases := pickChild_cases h v
  have hult : u < h.size := pickChild_lt hge
  have hu2 : u / 2 = v := pickChild_div2 h v
  have hle : h.key u ≤ h.key v := le_of_not_lt hnlt
  have kv : (hswap h v u).key v = h.key u := by
    rw [hswap_key, if_pos rfl]
  have ku : u ≠ v → (hswap h v u).key u = h.key v := by
    intro hne
    rw [hswap_key, if_neg hne, if_pos rfl]
  have ko : ∀ x, x ≠ v → x ≠ u → (hswap h v u).key x = h.key x := by
    intro x h1 h2
    rw [hswap_key, if_neg h1, if_neg h2]
  have hmin : ∀ s, 1 ≤ s → s < h.size → s / 2 = v → h.key u ≤ h.key s := by
    intro s h1 h2 h3
    exact pickChild_min s (by omega)
  constructor
  · intro w h1 h2 hwu
    rw [hswap_size] at h2
    by_cases hwv : w = v
    · subst hwv
      have hv1 : 1 ≤ w := h1
      have hparent : h.key (w / 2) ≤ h.key u := hA2 h1 u (by omega) hult hu2
      have hl : (hswap h w u).key (w / 2) = h.key (w / 2) :=
        ko _ (by omega) (by omega)
      rw [hl, kv]
      exact hparent
    · by_cases hwu2 : w = u
      · have huv : u ≠ v := by rw [← hwu2]; exact hwv
        have hl : (hswap h v u).key (w / 2) = h.key u := by
          rw [hwu2, hu2, kv]
        have hr : (hswap h v u).key w = h.key v := by
          rw [hwu2]
          exact ku huv
        rw [hl, hr]
        exact hle
      · have hr : (hswap h v u).key w = h.key w := ko w hwv hwu2
        rw [hr]
        by_cases hw2v : w / 2 = v
        · have hl : (hswap h v u).key (w / 2) = h.key u := by
            rw [hw2v, kv]
          rw [hl]
          exact hmin w h1 h2 hw2v
        · have hl : (hswap h v u).key (w / 2) = h.key (w / 2) :=
            ko _ hw2v hwu
          rw [hl]
          exact hA1 w h1 h2 hw2v
  · intro hu1 w h1 h2 hw2
    rw [hswap_size] at h2
    have huv : u ≠ v := by omega
    have hl : (hswap h v u).key (u / 2) = h.key u := by
      rw [hu2, kv]
    rw [hl]
    have hwv : w ≠ v := by omega
    have hwu : w ≠ u := by omega
    rw [ko w hwv hwu]
    have huvne : w / 2 ≠ v := by omega
    have hx := hA1 w h1 h2 huvne
    rw [hw2] at hx
    exact hx

theorem moveDownAux_heapProp : ∀ (fuel : ℕ) (h : Heap) (v : ℕ) (h2 : Heap),
    v < h.size → AlmostDown h v → moveDownAux h v fuel = some h2 →
    HeapProp h2 := by
  intro fuel
  induction fuel with
  | zero =>
    intro h v h2 hv hAD heq
    exact absurd heq (by simp [moveDownAux])
  | succ fuel ih =>
    intro h v h2 hv hAD heq
    simp only [moveDownAux] at heq
    split_ifs at heq with hge hlt
    · cases heq
      intro w h1 h2
      by_cases hw2v : w / 2 = v
      · omega
      · exact hAD.1 w h1 h2 hw2v
    · cases heq
      intro w h1 h2
      by_cases hw2v : w / 2 = v
      · rw [hw2v]
        exact le_trans (le_of_lt hlt) (@pickChild_min h v w (by omega))
      · exact hAD.1 w h1 h2 hw2v
    · exact ih _ _ h2 (by rw [hswap_size]; exact pickChild_lt (by omega))
        (hswap_almostDown hv (by omega) hlt hAD) heq

theorem moveDownAux_size_one : ∀ (fuel : ℕ) (h : Heap), h.size = 1 →
    moveDownAux h 0 fuel = none := by
  intro fuel
  induction fuel with
  | zero => intro h _; rfl
  | succ fuel ih =>
    intro h hs
    simp only [moveDownAux]
    have hp : pickChild h 0 = 0 := by
      unfold pickChild
      rw [if_neg (by omega)]
    rw [if_neg (by omega), hp, if_neg (lt_irrefl _)]
    exact ih _ (by rw [hswap_size]; exact hs)

theorem getD_append_left {α : Type} (d : α) :
    ∀ (l1 l2 : List α) (n : ℕ), n < l1.length →
      (l1 ++ l2).getD n d = l1.getD n d
  | [], _, n, hn => absurd hn (by simp)
  | _ :: _, _, 0, _ => rfl
  | _ :: l1, l2, n + 1, hn =>
    getD_append_left d l1 l2 n (by simpa using hn)

theorem getD_append_right {α : Type} (d : α) :
    ∀ (l1 l2 : List α) (n : ℕ),
      (l1 ++ l2).getD (l1.length + n) d = l2.getD n d
  | [], _, n => by simp
  | _ :: l1, l2, n => by
    have := getD_append_right d l1 l2 n
    simpa [List.length_cons, Nat.succ_add] using this

theorem insertKey_expand (h : Heap) (k : ℚ) :
    insertKey h k =
      moveUpF
        { size := h.size + 1
          key := fun i => if i = h.size then h.sign * k else h.key i
          eid := fun i => if i = h.size then h.size else h.eid i
          perm := fun e => if e = h.size then h.size else h.perm e
          sign := h.sign } h.size (h.size + 1) := by
  unfold insertKey moveUp
  simp

theorem insertKey_size (h : Heap) (k : ℚ) :
    (insertKey h k).size = h.size + 1 := by
  rw [insertKey_expand, moveUpF_size]

theorem insertKey_sign (h : Heap) (k : ℚ) :
    (insertKey h k).sign = h.sign := by
  rw [insertKey_expand, moveUpF_sign]

theorem insertKey_inv {h : Heap} (hwf : WF h) (hhp : HeapProp h) (k : ℚ) :
    WF (insertKey h k) ∧ HeapProp (insertKey h k) := by
  rw [insertKey_expand]
  set n := h.size with hn
  set h1 : Heap :=
    { size := n + 1
      key := fun i => if i = n then h.sign * k else h.key i
      eid := fun i => if i = n then n else h.eid i
      perm := fun e => if e = n then n else h.perm e
      sign := h.sign } with hh1
  have hs1 : h1.size = n + 1 := rfl
  have hwf1 : WF h1 := by
    constructor
    · intro e he
      rw [hs1] at he
      show (if e = n then n else h.perm e) < h1.size ∧
        h1.eid (if e = n then n else h.perm e) = e
      by_cases hen : e = n
      · rw [if_pos hen, hs1]
        exact ⟨by omega, by rw [show h1.eid n = n from if_pos rfl, hen]⟩
      · rw [if_neg hen, hs1]
        have hp := hwf.1 e (by omega)
        have hpn : h.perm e ≠ n := by omega
        exact ⟨by omega, by
          show (if h.perm e = n then n else h.eid (h.perm e)) = e
          rw [if_neg hpn, hp.2]⟩
    · intro v hv
      rw [hs1] at hv
      show (if v = n then n else h.eid v) < h1.size ∧
        h1.perm (if v = n then n else h.eid v) = v
      by_cases hvn : v = n
      · rw [if_pos hvn, hs1]
        exact ⟨by omega, by rw [show h1.perm n = n from if_pos rfl, hvn]⟩
      · rw [if_neg hvn, hs1]
        have hi := hwf.2 v (by omega)
        have hin : h.eid v ≠ n := by omega
        exact ⟨by omega, by
          show (if h.eid v = n then n else h.perm (h.eid v)) = v
          rw [if_neg hin, hi.2]⟩
  have hAU : AlmostUp h1 n := by
    constructor
    · intro w h1w h2w hwn
      rw [hs1] at h2w
      have hwlt : w < n := by omega
      have hw2 : w / 2 ≠ n := by omega
      show (if w / 2 = n then h.sign * k else h.key (w / 2)) ≤
        (if w = n then h.sign * k else h.key w)
      rw [if_neg hw2, if_neg hwn]
      exact hhp w h1w (by omega)
    · intro hn1 w h1w h2w hw2
      rw [hs1] at h2w
      omega
  exact ⟨moveUpF_WF _ _ _ (by omega) hwf1,
    moveUpF_heapProp _ _ _ (by omega) (by omega) hAU⟩

theorem insertKey_content {h : Heap} (k : ℚ) (Q : ℚ → ℕ → Prop)
    (hQ : ∀ v, v < h.size → Q (h.key v) (h.eid v))
    (hnew : Q (h.sign * k) h.size) :
    ∀ v, v < (insertKey h k).size →
      Q ((insertKey h k).key v) ((insertKey h k).eid v) := by
  rw [insertKey_expand]
  set n := h.size with hn
  apply moveUpF_content
  · show n < n + 1
    omega
  · intro w hw
    show Q (if w = n then h.sign * k else h.key w) (if w = n then n else h.eid w)
    by_cases hwn : w = n
    · rw [if_pos hwn, if_pos hwn]
      exact hnew
    · rw [if_neg hwn, if_neg hwn]
      have hw2 : w < h.size := by
        have : w < n + 1 := hw
        omega
      exact hQ w hw2

theorem foldl_insert_inv (s : ℚ) (L : List ℚ) :
    ∀ (rest done : List ℚ) (h : Heap), L = done ++ rest →
    h.size = done.length → h.sign = s → WF h → HeapProp h →
    (∀ v, v < h.size → h.key v = s * L.getD (h.eid v) 0) →
    (rest.foldl insertKey h).size = L.length ∧
      (rest.foldl insertKey h).sign = s ∧
      WF (rest.foldl insertKey h) ∧ HeapProp (rest.foldl insertKey h) ∧
      (∀ v, v < (rest.foldl insertKey h).size →
        (rest.foldl insertKey h).key v =
          s * L.getD ((rest.foldl insertKey h).eid v) 0) := by
  intro rest
  induction rest with
  | nil =>
    intro done h hL hsz hsg hwf hhp hinv
    refine ⟨?_, hsg, hwf, hhp, hinv⟩
    rw [hL, List.append_nil, ← hsz]
    rfl
  | cons r rest ih =>
    intro done h hL hsz hsg hwf hhp hinv
    have hL2 : L = (done ++ [r]) ++ rest := by
      rw [hL]
      simp
    have hstep := insertKey_inv hwf hhp r
    have hcontent : ∀ v, v < (insertKey h r).size →
        (insertKey h r).key v = s * L.getD ((insertKey h r).eid v) 0 := by
      apply insertKey_content r (fun q e => q = s * L.getD e 0) hinv
      have hgd : L.getD h.size 0 = r := by
        rw [hL, hsz]
        have := getD_append_right (0 : ℚ) done (r :: rest) 0
        simpa using this
      rw [hgd, hsg]
    have := ih (done ++ [r]) (insertKey h r) hL2
      (by rw [insertKey_size, hsz]; simp)
      (by rw [insertKey_sign, hsg]) hstep.1 hstep.2 hcontent
    simpa using this

theorem mkHeap_inv (keys : List ℚ) (isMax : Bool) :
    (mkHeap keys isMax).size = keys.length ∧
      (mkHeap keys isMax).sign = (if isMax then (-1 : ℚ) else 1) ∧
      WF (mkHeap keys isMax) ∧ HeapProp (mkHeap keys isMax) ∧
      (∀ v, v < (mkHeap keys isMax).size →
        (mkHeap keys isMax).key v =
          (if isMax then (-1 : ℚ) else 1) *
            keys.getD ((mkHeap keys isMax).eid v) 0) := by
  unfold mkHeap
  exact foldl_insert_inv (if isMax then (-1 : ℚ) else 1) keys keys [] _ rfl rfl rfl
    ⟨fun e he => absurd he (Nat.not_lt_zero e), fun v hv => absurd hv (Nat.not_lt_zero v)⟩
    (fun v h1 h2 => absurd h2 (Nat.not_lt_zero v))
    (fun v hv => absurd hv (Nat.not_lt_zero v))

theorem heapProp_root_le {h : Heap} (hhp : HeapProp h) :
    ∀ v, v < h.size → h.key 0 ≤ h.key v := by
  intro v
  induction v using Nat.strong_induction_on with
  | _ v ih =>
    intro hv
    rcases Nat.eq_zero_or_pos v with h0 | h0
    · rw [h0]
    · exact le_trans (ih (v / 2) (by omega) (by omega)) (hhp v h0 hv)

theorem setKeyAt_WF {h : Heap} {v : ℕ} {q : ℚ} (hwf : WF h) :
    WF (setKeyAt h v q) := hwf

theorem setKeyAt_key (h : Heap) (v : ℕ) (q : ℚ) (x : ℕ) :
    (setKeyAt h v q).key x = if x = v then q else h.key x := rfl

/-- Lowering the key stored at position `v` leaves a heap ready for
sift-up from `v`. -/
theorem setKeyAt_almostUp {h : Heap} {v : ℕ} {q : ℚ} (hv : v < h.size)
    (hhp : HeapProp h) (hq : q ≤ h.key v) : AlmostUp (setKeyAt h v q) v := by
  constructor
  · intro w h1 h2 hwv
    rw [setKeyAt_key, setKeyAt_key, if_neg hwv]
    by_cases hw2 : w / 2 = v
    · rw [if_pos hw2]
      have hx := hhp w h1 h2
      rw [hw2] at hx
      exact le_trans hq hx
    · rw [if_neg hw2]
      exact hhp w h1 h2
  · intro hv1 w h1 h2 hw2
    rw [setKeyAt_key, setKeyAt_key, if_neg (show v / 2 ≠ v by omega),
        if_neg (show w ≠ v by omega)]
    have hx := hhp w h1 h2
    rw [hw2] at hx
    exact le_trans (hhp v hv1 hv) hx

/-- Raising the key stored at position `v` leaves a heap ready for
sift-down from `v`. -/
theorem setKeyAt_almostDown {h : Heap} {v : ℕ} {q : ℚ} (hv : v < h.size)
    (hhp : HeapProp h) (hq : h.key v ≤ q) : AlmostDown (setKeyAt h v q) v := by
  constructor
  · intro w h1 h2 hw2
    rw [setKeyAt_key, setKeyAt_key, if_neg hw2]
    by_cases hwv : w = v
    · rw [if_pos hwv]
      have hx : h.key (w / 2) ≤ h.key w := hhp w h1 h2
      have hq2 : h.key w ≤ q := by rw [hwv]; exact hq
      exact le_trans hx hq2
    · rw [if_neg hwv]
      exact hhp w h1 h2
  · intro hv1 w h1 h2 hw2
    rw [setKeyAt_key, setKeyAt_key, if_neg (show v / 2 ≠ v by omega),
        if_neg (show w ≠ v by omega)]
    have hx := hhp w h1 h2
    rw [hw2] at hx
    exact le_trans (hhp v hv1 hv) hx

theorem decreaseKey_eq (h : Heap) (e : ℕ) (d : ℚ) (fuel : ℕ)
    (he : e < h.size) :
    decreaseKey h e d fuel =
      .ok (if 0 < h.sign
        then some (moveUp (setKeyAt h (h.perm e) (h.key (h.perm e) - h.sign * d)) e)
        else moveDownAux (setKeyAt h (h.perm e) (h.key (h.perm e) - h.sign * d))
          ((setKeyAt h (h.perm e) (h.key (h.perm e) - h.sign * d)).perm e) fuel) := by
  unfold decreaseKey
  rw [if_pos he]

theorem increaseKey_eq (h : Heap) (e : ℕ) (d : ℚ) (fuel : ℕ)
    (he : e < h.size) :
    increaseKey h e d fuel =
      .ok (if 0 < h.sign
        then moveDownAux (setKeyAt h (h.perm e) (h.key (h.perm e) + h.sign * d))
          ((setKeyAt h (h.perm e) (h.key (h.perm e) + h.sign * d)).perm e) fuel
        else some (moveUp (setKeyAt h (h.perm e) (h.key (h.perm e) + h.sign * d)) e)) := by
  unfold increaseKey
  rw [if_pos he]

/-- Unfolding of DecreaseKey on a valid element: sizes and sign are kept,
and the stored key of the element becomes its old stored key minus
`m_Sign * Decrement`; the keys stored for all other elements are
untouched. -/
theorem decreaseKey_spec {h : Heap} {e : ℕ} {d : ℚ} {fuel : ℕ} {h2 : Heap}
    (hwf : WF h) (he : e < h.size)
    (heq : decreaseKey h e d fuel = .ok (some h2)) :
    h2.size = h.size ∧ h2.sign = h.sign ∧ WF h2 ∧
      h2.key (h2.perm e) = h.key (h.perm e) - h.sign * d := by
  rw [decreaseKey_eq h e d fuel he] at heq
  set v := h.perm e with hv
  set h1 := setKeyAt h v (h.key v - h.sign * d) with hh1
  have hv1 : h1.perm e = v := rfl
  have hs1 : h1.size = h.size := rfl
  have hwf1 : WF h1 := setKeyAt_WF hwf
  have hvlt : v < h.size := (hwf.1 e he).1
  have hk1 : h1.key v = h.key v - h.sign * d := by
    rw [hh1, setKeyAt_key, if_pos rfl]
  by_cases hs : 0 < h.sign
  · rw [if_pos hs] at heq
    have heq2 : moveUp h1 e = h2 := by
      have := Except.ok.inj heq
      exact Option.some.inj this
    rw [← heq2]
    unfold moveUp
    rw [hv1]
    refine ⟨by rw [moveUpF_size, hs1], by rw [moveUpF_sign]; exact rfl, ?_, ?_⟩
    · exact moveUpF_WF _ _ _ (by rw [hs1]; exact hvlt) hwf1
    · have hst := moveUpF_stored (v + 1) h1 v (by rw [hs1]; exact hvlt) hwf1 e
        (by rw [hs1]; exact he)
      rw [hv1] at hst
      rw [hst]
      exact hk1
  · rw [if_neg hs] at heq
    have heq2 : moveDownAux h1 (h1.perm e) fuel = some h2 := Except.ok.inj heq
    rw [hv1] at heq2
    have hinv := moveDownAux_inv fuel h1 v h2 (by rw [hs1]; exact hvlt) hwf1 heq2
    refine ⟨by rw [hinv.1, hs1], by rw [hinv.2.1]; exact rfl, hinv.2.2.1, ?_⟩
    rw [hinv.2.2.2 e (by rw [hs1]; exact he), hv1]
    exact hk1

/-- Unfolding of IncreaseKey on a valid element, mirror of
`decreaseKey_spec`. -/
theorem increaseKey_spec {h : Heap} {e : ℕ} {d : ℚ} {fuel : ℕ} {h2 : Heap}
    (hwf : WF h) (he : e < h.size)
    (heq : increaseKey h e d fuel = .ok (some h2)) :
    h2.size = h.size ∧ h2.sign = h.sign ∧ WF h2 ∧
      h2.key (h2.perm e) = h.key (h.perm e) + h.sign * d := by
  rw [increaseKey_eq h e d fuel he] at heq
  set v := h.perm e with hv
  set h1 := setKeyAt h v (h.key v + h.sign * d) with hh1
  have hv1 : h1.perm e = v := rfl
  have hs1 : h1.size = h.size := rfl
  have hwf1 : WF h1 := setKeyAt_WF hwf
  have hvlt : v < h.size := (hwf.1 e he).1
  have hk1 : h1.key v = h.key v + h.sign * d := by
    rw [hh1, setKeyAt_key, if_pos rfl]
  by_cases hs : 0 < h.sign
  · rw [if_pos hs] at heq
    have heq2 : moveDownAux h1 (h1.perm e) fuel = some h2 := Except.ok.inj heq
    rw [hv1] at heq2
    have hinv := moveDownAux_inv fuel h1 v h2 (by rw [hs1]; exact hvlt) hwf1 heq2
    refine ⟨by rw [hinv.1, hs1], by rw [hinv.2.1]; exact rfl, hinv.2.2.1, ?_⟩
    rw [hinv.2.2.2 e (by rw [hs1]; exact he), hv1]
    exact hk1
  · rw [if_neg hs] at heq
    have heq2 : moveUp h1 e = h2 := by
      have := Except.ok.inj heq
      exact Option.some.inj this
    rw [← heq2]
    unfold moveUp
    rw [hv1]
    refine ⟨by rw [moveUpF_size, hs1], by rw [moveUpF_sign]; exact rfl, ?_, ?_⟩
    · exact moveUpF_WF _ _ _ (by rw [hs1]; exact hvlt) hwf1
    · have hst := moveUpF_stored (v + 1) h1 v (by rw [hs1]; exact hvlt) hwf1 e
        (by rw [hs1]; exact he)
      rw [hv1] at hst
      rw [hst]
      exact hk1

/-- A returning DecreaseKey with non-negative delta restores the heap
property. -/
theorem decreaseKey_heapProp {h : Heap} {e : ℕ} {d : ℚ} {fuel : ℕ} {h2 : Heap}
    (hwf : WF h) (hhp : HeapProp h) (hd : 0 ≤ d)
    (heq : decreaseKey h e d fuel = .ok (some h2)) :
    WF h2 ∧ HeapProp h2 := by
  have he : e < h.size := by
    by_contra hne
    rw [decreaseKey, if_neg hne] at heq
    exact absurd heq (by simp)
  rw [decreaseKey_eq h e d fuel he] at heq
  set v := h.perm e with hv
  set h1 := setKeyAt h v (h.key v - h.sign * d) with hh1
  have hv1 : h1.perm e = v := rfl
  have hs1 : h1.size = h.size := rfl
  have hwf1 : WF h1 := setKeyAt_WF hwf
  have hvlt : v < h.size := (hwf.1 e he).1
  by_cases hs : 0 < h.sign
  · rw [if_pos hs] at heq
    have heq2 : moveUp h1 e = h2 := by
      have := Except.ok.inj heq
      exact Option.some.inj this
    have hq : h.key v - h.sign * d ≤ h.key v := by
      have : 0 ≤ h.sign * d := mul_nonneg (le_of_lt hs) hd
      linarith
    have hAU : AlmostUp h1 v := setKeyAt_almostUp hvlt hhp hq
    rw [← heq2]
    unfold moveUp
    rw [hv1]
    exact ⟨moveUpF_WF _ _ _ (by rw [hs1]; exact hvlt) hwf1,
      moveUpF_heapProp _ _ _ (by omega) (by rw [hs1]; exact hvlt) hAU⟩
  · rw [if_neg hs] at heq
    have heq2 : moveDownAux h1 (h1.perm e) fuel = some h2 := Except.ok.inj heq
    rw [hv1] at heq2
    have hq : h.key v ≤ h.key v - h.sign * d := by
      have : h.sign * d ≤ 0 :=
        mul_nonpos_of_nonpos_of_nonneg (le_of_not_lt hs) hd
      linarith
    have hAD : AlmostDown h1 v := setKeyAt_almostDown hvlt hhp hq
    exact ⟨(moveDownAux_inv fuel h1 v h2 (by rw [hs1]; exact hvlt) hwf1 heq2).2.2.1,
      moveDownAux_heapProp fuel h1 v h2 (by rw [hs1]; exact hvlt) hAD heq2⟩

/-- A returning IncreaseKey with non-negative delta restores the heap
property. -/
theorem increaseKey_heapProp {h : Heap} {e : ℕ} {d : ℚ} {fuel : ℕ} {h2 : Heap}
    (hwf : WF h) (hhp : HeapProp h) (hd : 0 ≤ d)
    (heq : increaseKey h e d fuel = .ok (some h2)) :
    WF h2 ∧ HeapProp h2 := by
  have he : e < h.size := by
    by_contra hne
    rw [increaseKey, if_neg hne] at heq
    exact absurd heq (by simp)
  rw [increaseKey_eq h e d fuel he] at heq
  set v := h.perm e with hv
  set h1 := setKeyAt h v (h.key v + h.sign * d) with hh1
  have hv1 : h1.perm e = v := rfl
  have hs1 : h1.size = h.size := rfl
  have hwf1 : WF h1 := setKeyAt_WF hwf
  have hvlt : v < h.size := (hwf.1 e he).1
  by_cases hs : 0 < h.sign
  · rw [if_pos hs] at heq
    have heq2 : moveDownAux h1 (h1.perm e) fuel = some h2 := Except.ok.inj heq
    rw [hv1] at heq2
    have hq : h.key v ≤ h.key v + h.sign * d := by
      have : 0 ≤ h.sign * d := mul_nonneg (le_of_lt hs) hd
      linarith
    have hAD : AlmostDown h1 v := setKeyAt_almostDown hvlt hhp hq
    exact ⟨(moveDownAux_inv fuel h1 v h2 (by rw [hs1]; exact hvlt) hwf1 heq2).2.2.1,
      moveDownAux_heapProp fuel h1 v h2 (by rw [hs1]; exact hvlt) hAD heq2⟩
  · rw [if_neg hs] at heq
    have heq2 : moveUp h1 e = h2 := by
      have := Except.ok.inj heq
      exact Option.some.inj this
    have hq : h.key v + h.sign * d ≤ h.key v := by
      have : h.sign * d ≤ 0 :=
        mul_nonpos_of_nonpos_of_nonneg (le_of_not_lt hs) hd
      linarith
    have hAU : AlmostUp h1 v := setKeyAt_almostUp hvlt hhp hq
    rw [← heq2]
    unfold moveUp
    rw [hv1]
    exact ⟨moveUpF_WF _ _ _ (by rw [hs1]; exact hvlt) hwf1,
      moveUpF_heapProp _ _ _ (by omega) (by rw [hs1]; exact hvlt) hAU⟩

theorem reachable_inv {h : Heap} (hr : Reachable h) : WF h ∧ HeapProp h := by
  induction hr with
  | build keys isMax =>
    have := mkHeap_inv keys isMax
    exact ⟨this.2.2.1, this.2.2.2.1⟩
  | dec h e d fuel h2 hr hd heq ih =>
    exact decreaseKey_heapProp ih.1 ih.2 hd heq
  | inc h e d fuel h2 hr hd heq ih =>
    exact increaseKey_heapProp ih.1 ih.2 hd heq

/-- C1 (code_bug evidence): on the heap built from the single key list
`[1]` (a min-heap of size 1), IncreaseKey(0, d) never returns: the
sift-down loop, whose child index is computed as `2 * v` on the 0-indexed
array, treats the root as its own child and self-swaps forever.  The model
returns `.ok none` (bound check passed, loop fuel exhausted) for every
fuel value, i.e. the C++ loop runs forever. -/
theorem claim_C1_increaseKey_diverges (fuel : ℕ) (d : ℚ) :
    increaseKey (mkHeap [1] false) 0 d fuel = .ok none := by
  have hsz : (mkHeap [1] false).size = 1 := rfl
  have hperm : (mkHeap [1] false).perm 0 = 0 := rfl
  have hsg : (0 : ℚ) < (mkHeap [1] false).sign := by
    have : (mkHeap [1] false).sign = 1 := rfl
    rw [this]
    norm_num
  rw [increaseKey_eq _ _ _ _ (by omega), if_pos hsg, hperm]
  have hsz1 : (setKeyAt (mkHeap [1] false) 0
      ((mkHeap [1] false).key 0 + (mkHeap [1] false).sign * d)).size = 1 := hsz
  have hperm1 : (setKeyAt (mkHeap [1] false) 0
      ((mkHeap [1] false).key 0 + (mkHeap [1] false).sign * d)).perm 0 = 0 := hperm
  rw [hperm1, moveDownAux_size_one fuel _ hsz1]

/-- C2: FindMin on a heap built from a non-empty key list returns a pair
`(k, e)` where `e` is a valid element index, `keys[e] = k`, and `k` is a
lower bound of all keys for a min-heap (upper bound for a max-heap) — so
`k` is the minimum (resp. maximum) of the keys and `e` attains it. -/
theorem claim_C2_findMin_extremal (keys : List ℚ) (isMax : Bool)
    (hne : keys ≠ []) :
    ∃ k e, findMin (mkHeap keys isMax) = .ok (k, e) ∧ e < keys.length ∧
      keys.getD e 0 = k ∧
      ∀ i, i < keys.length →
        (if isMax then keys.getD i 0 ≤ k else k ≤ keys.getD i 0) := by
  obtain ⟨hsz, hsg, hwf, hhp, hinv⟩ := mkHeap_inv keys isMax
  set h := mkHeap keys isMax with hh
  have hpos : 0 < h.size := by
    rw [hsz]
    exact List.length_pos.mpr hne
  have hfind : findMin h = .ok (h.sign * h.key 0, h.eid 0) := by
    rw [findMin, if_pos hpos]
  have hss : h.sign * h.sign = 1 := by
    rw [hsg]
    cases isMax <;> norm_num
  have hinv2 : ∀ v, v < h.size → h.key v = h.sign * keys.getD (h.eid v) 0 := by
    intro v hv
    rw [hinv v hv, hsg]
  refine ⟨h.sign * h.key 0, h.eid 0, hfind, ?_, ?_, ?_⟩
  · rw [← hsz]
    exact (hwf.2 0 hpos).1
  · rw [hinv2 0 hpos, ← mul_assoc, hss, one_mul]
  · intro i hi
    have hilt : i < h.size := by rw [hsz]; exact hi
    have hpi : h.perm i < h.size := (hwf.1 i hilt).1
    have hroot : h.key 0 ≤ h.key (h.perm i) := heapProp_root_le hhp _ hpi
    have hki : h.key (h.perm i) = h.sign * keys.getD i 0 := by
      rw [hinv2 (h.perm i) hpi, (hwf.1 i hilt).2]
    cases isMax with
    | false =>
      have hsg1 : h.sign = 1 := by rw [hsg]; norm_num
      have hki2 : h.key (h.perm i) = keys.getD i 0 := by
        rw [hki, hsg1, one_mul]
      simp only [Bool.false_eq_true, if_false]
      rw [hsg1, one_mul, ← hki2]
      exact hroot
    | true =>
      have hsg1 : h.sign = -1 := by rw [hsg]; norm_num
      have hki2 : h.key (h.perm i) = -keys.getD i 0 := by
        rw [hki, hsg1]
        ring
      have hx : h.key 0 ≤ -keys.getD i 0 := hki2 ▸ hroot
      simp only [if_true]
      rw [hsg1]
      linarith

/-- Witness for C2 at the concrete non-empty key list `[2, 1]`. -/
theorem claim_C2_witness :
    ∃ k e, findMin (mkHeap [(2 : ℚ), 1] false) = .ok (k, e) ∧
      e < [(2 : ℚ), 1].length ∧ [(2 : ℚ), 1].getD e 0 = k ∧
      ∀ i, i < [(2 : ℚ), 1].length →
        (if false then [(2 : ℚ), 1].getD i 0 ≤ k
         else k ≤ [(2 : ℚ), 1].getD i 0) :=
  claim_C2_findMin_extremal [2, 1] false (by simp)

/-- C3: on a well-formed heap of either mode, a returning
DecreaseKey(e, d) changes GetKey(e) from `k` to `k - d`, and a returning
IncreaseKey(e, d) changes it to `k + d`, for every valid `e` and `d ≥ 0`. -/
theorem claim_C3_adjust_by_delta (h : Heap) (e : ℕ) (d : ℚ) (fuel : ℕ)
    (hwf : WF h) (hsg : h.sign = 1 ∨ h.sign = -1) (he : e < h.size)
    (hd : 0 ≤ d) :
    (∀ h2 k, decreaseKey h e d fuel = .ok (some h2) → getKey h e = .ok k →
      getKey h2 e = .ok (k - d)) ∧
    (∀ h2 k, increaseKey h e d fuel = .ok (some h2) → getKey h e = .ok k →
      getKey h2 e = .ok (k + d)) := by
  have hss : h.sign * h.sign = 1 := by
    rcases hsg with hs | hs <;> rw [hs] <;> norm_num
  constructor
  · intro h2 k heq hk
    obtain ⟨hsz2, hsg2, hwf2, hkey2⟩ := decreaseKey_spec hwf he heq
    rw [getKey, if_pos he] at hk
    have hkv : k = h.sign * h.key (h.perm e) := (Except.ok.inj hk).symm
    rw [getKey, if_pos (by rw [hsz2]; exact he), hsg2, hkey2, hkv]
    have : h.sign * (h.key (h.perm e) - h.sign * d) =
        h.sign * h.key (h.perm e) - (h.sign * h.sign) * d := by ring
    rw [this, hss, one_mul]
  · intro h2 k heq hk
    obtain ⟨hsz2, hsg2, hwf2, hkey2⟩ := increaseKey_spec hwf he heq
    rw [getKey, if_pos he] at hk
    have hkv : k = h.sign * h.key (h.perm e) := (Except.ok.inj hk).symm
    rw [getKey, if_pos (by rw [hsz2]; exact he), hsg2, hkey2, hkv]
    have : h.sign * (h.key (h.perm e) + h.sign * d) =
        h.sign * h.key (h.perm e) + (h.sign * h.sign) * d := by ring
    rw [this, hss, one_mul]

/-- Witness for C3 at the singleton min-heap built from `[1]`, element 0,
delta 1. -/
theorem claim_C3_witness :
    (∀ h2 k, decreaseKey (mkHeap [1] false) 0 1 5 = .ok (some h2) →
      getKey (mkHeap [1] false) 0 = .ok k → getKey h2 0 = .ok (k - 1)) ∧
    (∀ h2 k, increaseKey (mkHeap [1] false) 0 1 5 = .ok (some h2) →
      getKey (mkHeap [1] false) 0 = .ok k → getKey h2 0 = .ok (k + 1)) :=
  claim_C3_adjust_by_delta (mkHeap [1] false) 0 1 5
    ⟨by decide, by decide⟩ (Or.inl rfl) (by decide) (by norm_num)

/-- C4: every heap state reachable by construction followed by returning
DecreaseKey/IncreaseKey calls (with the documented non-negative deltas)
satisfies the representation invariant `m_Nodes[m_Perm[e]].second = e`
for every element, and the heap property on stored keys
(`m_Nodes[v / 2].first ≤ m_Nodes[v].first` for every position `v ≥ 1`). -/
theorem claim_C4_reachable_invariant (h : Heap) (hr : Reachable h) :
    (∀ e, e < h.size → h.eid (h.perm e) = e) ∧ HeapProp h := by
  obtain ⟨hwf, hhp⟩ := reachable_inv hr
  exact ⟨fun e he => (hwf.1 e he).2, hhp⟩

/-- Witness for C4 at the heap built from `[1]`. -/
theorem claim_C4_witness :
    (∀ e, e < (mkHeap [1] false).size →
      (mkHeap [1] false).eid ((mkHeap [1] false).perm e) = e) ∧
    HeapProp (mkHeap [1] false) :=
  claim_C4_reachable_invariant (mkHeap [1] false) (Reachable.build [1] false)

end CutHeap

namespace CutAdj

/-- C5 (code_bug evidence): copy-constructing a cut::AdjacencyList from a
cut::AdjacencyList holding the single row `[5]` (built from the
connection list `[(0, 5)]`) produces the row `[5, 5]`, not `[5]`: the
dynamic_cast fast path copies the backing rows and then, lacking an early
return, the generic walk appends every source row onto the copy again. -/
theorem claim_C5_copyCtor_duplicates :
    rowOf (copyCtorSame (fromConnections [(0, 5)])) 0 = [5, 5] ∧
    rowOf (fromConnections [(0, 5)]) 0 = [5] ∧
    numAdjacentsE (copyCtorSame (fromConnections [(0, 5)])) 0 = .ok 2 ∧
    numAdjacentsE (fromConnections [(0, 5)]) 0 = .ok 1 := by decide

/-- C7 (code_bug evidence): on the 1-node list built by the
cut::AdjacencyList(int) constructor, a successful AddAdjacent leaves the
cached NumConnections() at 0 while the total number of stored adjacents
is 1 — the cache is not maintained by mutations. -/
theorem claim_C7_nConnections_stale :
    addAdjacent (fromN 1) 0 0 = .ok ⟨[[0]], 0⟩ ∧
    numConnectionsZ ⟨[[0]], 0⟩ = 0 ∧
    totalAdjacents ⟨[[0]], 0⟩ = 1 := by decide

/-- C10: none of the nine mutation operations of cut::AdjacencyList ever
changes the cached `m_NConnections`, even when it changes the stored
adjacents — the value returned by NumConnections() is fixed at
construction/assignment time. -/
theorem claim_C10_nConnections_frame (A A2 : AdjacencyList) (i j idx k : ℤ) :
    ((addNode A).nConnections = A.nConnections) ∧
    (insertNode A i = .ok A2 → A2.nConnections = A.nConnections) ∧
    (swapNodes A i j = .ok A2 → A2.nConnections = A.nConnections) ∧
    (removeNode A i = .ok A2 → A2.nConnections = A.nConnections) ∧
    (addAdjacent A i j = .ok A2 → A2.nConnections = A.nConnections) ∧
    (insertAdjacent A i j idx = .ok A2 → A2.nConnections = A.nConnections) ∧
    (updateAdjacent A i j idx = .ok A2 → A2.nConnections = A.nConnections) ∧
    (replaceAdjacent A i j k = .ok A2 → A2.nConnections = A.nConnections) ∧
    (removeAdjacent A i idx = .ok A2 → A2.nConnections = A.nConnections) := by
  refine ⟨rfl, ?_, ?_, ?_, ?_, ?_, ?_, ?_, ?_⟩
  · intro h
    unfold insertNode at h
    split_ifs at h <;> cases h <;> rfl
  · intro h
    unfold swapNodes at h
    split_ifs at h <;> cases h <;> rfl
  · intro h
    unfold removeNode at h
    split_ifs at h <;> cases h <;> rfl
  · intro h
    unfold addAdjacent at h
    split_ifs at h <;> cases h <;> rfl
  · intro h
    unfold insertAdjacent at h
    split_ifs at h <;> cases h <;> rfl
  · intro h
    unfold updateAdjacent at h
    split_ifs at h <;> cases h <;> rfl
  · intro h
    unfold replaceAdjacent at h
    split_ifs at h <;> cases h <;> rfl
  · intro h
    unfold removeAdjacent at h
    split_ifs at h <;> cases h <;> rfl

/-- Witness for C10: each of the nine operations applied successfully to
the concrete two-node list built from `[(0, 1), (1, 0)]`. -/
theorem claim_C10_witness :
    ((addNode (fromConnections [(0, 1), (1, 0)])).nConnections =
      (fromConnections [(0, 1), (1, 0)]).nConnections) ∧
    ((AdjacencyList.mk [[], [1], [0]] 2).nConnections =
      (fromConnections [(0, 1), (1, 0)]).nConnections) ∧
    ((AdjacencyList.mk [[0], [1]] 2).nConnections =
      (fromConnections [(0, 1), (1, 0)]).nConnections) ∧
    ((AdjacencyList.mk [[0]] 2).nConnections =
      (fromConnections [(0, 1), (1, 0)]).nConnections) ∧
    ((AdjacencyList.mk [[1, 2], [0]] 2).nConnections =
      (fromConnections [(0, 1), (1, 0)]).nConnections) ∧
    ((AdjacencyList.mk [[2, 1], [0]] 2).nConnections =
      (fromConnections [(0, 1), (1, 0)]).nConnections) ∧
    ((AdjacencyList.mk [[2], [0]] 2).nConnections =
      (fromConnections [(0, 1), (1, 0)]).nConnections) ∧
    ((AdjacencyList.mk [[2], [0]] 2).nConnections =
      (fromConnections [(0, 1), (1, 0)]).nConnections) ∧
    ((AdjacencyList.mk [[], [0]] 2).nConnections =
      (fromConnections [(0, 1), (1, 0)]).nConnections) := by
  refine ⟨(claim_C10_nConnections_frame (fromConnections [(0, 1), (1, 0)])
      (AdjacencyList.mk [[], [1], [0]] 2) 0 0 0 0).1, ?_, ?_, ?_, ?_, ?_, ?_, ?_, ?_⟩
  · exact (claim_C10_nConnections_frame (fromConnections [(0, 1), (1, 0)])
      (AdjacencyList.mk [[], [1], [0]] 2) 0 0 0 0).2.1 (by decide)
  · exact (claim_C10_nConnections_frame (fromConnections [(0, 1), (1, 0)])
      (AdjacencyList.mk [[0], [1]] 2) 0 1 0 0).2.2.1 (by decide)
  · exact (claim_C10_nConnections_frame (fromConnections [(0, 1), (1, 0)])
      (AdjacencyList.mk [[0]] 2) 0 0 0 0).2.2.2.1 (by decide)
  · exact (claim_C10_nConnections_frame (fromConnections [(0, 1), (1, 0)])
      (AdjacencyList.mk [[1, 2], [0]] 2) 0 2 0 0).2.2.2.2.1 (by decide)
  · exact (claim_C10_nConnections_frame (fromConnections [(0, 1), (1, 0)])
      (AdjacencyList.mk [[2, 1], [0]] 2) 0 2 0 0).2.2.2.2.2.1 (by decide)
  · exact (claim_C10_nConnections_frame (fromConnections [(0, 1), (1, 0)])
      (AdjacencyList.mk [[2], [0]] 2) 0 2 0 0).2.2.2.2.2.2.1 (by decide)
  · exact (claim_C10_nConnections_frame (fromConnections [(0, 1), (1, 0)])
      (AdjacencyList.mk [[2], [0]] 2) 0 1 0 2).2.2.2.2.2.2.2.1 (by decide)
  · exact (claim_C10_nConnections_frame (fromConnections [(0, 1), (1, 0)])
      (AdjacencyList.mk [[], [0]] 2) 0 0 0 0).2.2.2.2.2.2.2.2 (by decide)

/-- C9 counterexample: on the list built from `[(0, 1)]`, node 0 is
valid, `NumAdjacents(0) = 1`, and `2` is not yet adjacent, so the claim
promises that `InsertAdjacent(0, 2, 1)` (an insertion at the inclusive
upper end `idx = NumAdjacents(0)`) succeeds — but the code checks
`idx < NumAdjacents(i)` and signals OutOfRange. -/
theorem claim_C9_counterexample :
    insertAdjacent (fromConnections [(0, 1)]) 0 2 1 = .error .outOfRange := by
  decide

/-- C9 (amended): InsertAdjacent(i, j, idx) succeeds exactly for valid
`i`, `idx` in the half-open range `[0, NumAdjacents(i))`, and `j` not
already adjacent, inserting `j` at position `idx` and shifting later
entries; it signals OutOfRange when `i` or `idx` is outside that range
and FailedAssertion when `i` and `idx` are in range but `j` is already
adjacent. -/
theorem claim_C9_insertAdjacent_amended (A : AdjacencyList) (i j idx : ℤ) :
    ((0 ≤ i ∧ i < numNodesZ A) → (0 ≤ idx ∧ idx < ((rowOf A i).length : ℤ)) →
      j ∉ rowOf A i →
      insertAdjacent A i j idx = .ok { A with adj := (A.adj.set i.toNat
        ((rowOf A i).take idx.toNat ++ j :: (rowOf A i).drop idx.toNat)) }) ∧
    (¬(0 ≤ i ∧ i < numNodesZ A) →
      insertAdjacent A i j idx = .error .outOfRange) ∧
    ((0 ≤ i ∧ i < numNodesZ A) → ¬(0 ≤ idx ∧ idx < ((rowOf A i).length : ℤ)) →
      insertAdjacent A i j idx = .error .outOfRange) ∧
    ((0 ≤ i ∧ i < numNodesZ A) → (0 ≤ idx ∧ idx < ((rowOf A i).length : ℤ)) →
      j ∈ rowOf A i → insertAdjacent A i j idx = .error .assertFail) := by
  refine ⟨?_, ?_, ?_, ?_⟩
  · intro h1 h2 h3
    unfold insertAdjacent
    rw [if_pos h1, if_pos h2, if_neg h3]
  · intro h1
    unfold insertAdjacent
    rw [if_neg h1]
  · intro h1 h2
    unfold insertAdjacent
    rw [if_pos h1, if_neg h2]
  · intro h1 h2 h3
    unfold insertAdjacent
    rw [if_pos h1, if_pos h2, if_pos h3]

/-- Witness for C9 (amended) on the list built from `[(0, 1)]`: a
successful in-range insertion, and the three failure modes. -/
theorem claim_C9_witness :
    insertAdjacent (fromConnections [(0, 1)]) 0 2 0 = .ok ⟨[[2, 1]], 1⟩ ∧
    insertAdjacent (fromConnections [(0, 1)]) (-1) 2 0 = .error .outOfRange ∧
    insertAdjacent (fromConnections [(0, 1)]) 0 2 1 = .error .outOfRange ∧
    insertAdjacent (fromConnections [(0, 1)]) 0 1 0 = .error .assertFail := by
  refine ⟨?_, ?_, ?_, ?_⟩
  · exact ((claim_C9_insertAdjacent_amended (fromConnections [(0, 1)]) 0 2 0).1
      (by decide) (by decide) (by decide)).trans (by decide)
  · exact (claim_C9_insertAdjacent_amended (fromConnections [(0, 1)]) (-1) 2 0).2.1
      (by decide)
  · exact (claim_C9_insertAdjacent_amended (fromConnections [(0, 1)]) 0 2 1).2.2.1
      (by decide) (by decide)
  · exact (claim_C9_insertAdjacent_amended (fromConnections [(0, 1)]) 0 1 0).2.2.2
      (by decide) (by decide) (by decide)

theorem getD_set_self {α : Type} (d a : α) :
    ∀ (l : List α) (n : ℕ), n < l.length → (l.set n a).getD n d = a := by
  intro l
  induction l with
  | nil => intro n hn; simp at hn
  | cons x xs ih =>
    intro n hn
    cases n with
    | zero => rfl
    | succ n => exact ih n (by simpa using hn)

theorem getD_set_ne {α : Type} (d a : α) :
    ∀ (l : List α) (n m : ℕ), n ≠ m → (l.set n a).getD m d = l.getD m d := by
  intro l
  induction l with
  | nil => intro n m _; rfl
  | cons x xs ih =>
    intro n m hnm
    cases n with
    | zero =>
      cases m with
      | zero => omega
      | succ m => rfl
    | succ n =>
      cases m with
      | zero => rfl
      | succ m => exact ih n m (by omega)

theorem addSwallow_numNodes (A : AdjacencyList) (c : ℤ × ℤ) :
    numNodesZ (addSwallow A c) = numNodesZ A := by
  unfold addSwallow
  cases h : addAdjacent A c.1 c.2 with
  | error e => rfl
  | ok A2 =>
    unfold addAdjacent at h
    split_ifs at h <;> cases h
    show ((A.adj.set _ _).length : ℤ) = (A.adj.length : ℤ)
    rw [List.length_set]

theorem addSwallow_rowOf (A : AdjacencyList) (c : ℤ × ℤ) (i : ℤ)
    (hi0 : 0 ≤ i) (hin : i < numNodesZ A) :
    rowOf (addSwallow A c) i =
      if c.1 = i then
        (if c.2 ∈ rowOf A i then rowOf A i else rowOf A i ++ [c.2])
      else rowOf A i := by
  unfold addSwallow addAdjacent
  by_cases hci : c.1 = i
  · rw [if_pos hci, hci, if_pos ⟨hi0, hin⟩]
    by_cases hmem : c.2 ∈ rowOf A i
    · rw [if_pos hmem, if_pos hmem]
    · rw [if_neg hmem, if_neg hmem]
      show rowOf { A with adj := A.adj.set i.toNat (rowOf A i ++ [c.2]) } i = _
      unfold numNodesZ at hin
      unfold rowOf
      exact getD_set_self [] _ A.adj i.toNat (by omega)
  · rw [if_neg hci]
    by_cases hcv : 0 ≤ c.1 ∧ c.1 < numNodesZ A
    · rw [if_pos hcv]
      by_cases hmem : c.2 ∈ rowOf A c.1
      · rw [if_pos hmem]
      · rw [if_neg hmem]
        show rowOf { A with adj := A.adj.set c.1.toNat (rowOf A c.1 ++ [c.2]) } i = _
        unfold rowOf
        exact getD_set_ne [] _ A.adj c.1.toNat i.toNat (by omega)
    · rw [if_neg hcv]

theorem getD_replicate_nil :
    ∀ (n i : ℕ), (List.replicate n ([] : List ℤ)).getD i [] = [] := by
  intro n
  induction n with
  | zero => intro i; cases i <;> rfl
  | succ n ih =>
    intro i
    cases i with
    | zero => rfl
    | succ i => exact ih i

theorem foldl_addSwallow_numNodes :
    ∀ (conns : List (ℤ × ℤ)) (A : AdjacencyList),
      numNodesZ (conns.foldl addSwallow A) = numNodesZ A := by
  intro conns
  induction conns with
  | nil => intro A; rfl
  | cons c conns ih =>
    intro A
    rw [List.foldl_cons, ih, addSwallow_numNodes]

theorem foldl_addSwallow_inv :
    ∀ (conns : List (ℤ × ℤ)) (A : AdjacencyList) (i : ℤ),
    0 ≤ i → i < numNodesZ A →
    numNodesZ (conns.foldl addSwallow A) = numNodesZ A ∧
    rowOf (conns.foldl addSwallow A) i =
      (conns.filterMap (fun c => if c.1 = i then some c.2 else none)).foldl
        (fun acc x => if x ∈ acc then acc else acc ++ [x]) (rowOf A i) := by
  intro conns
  induction conns with
  | nil => intro A i _ _; exact ⟨rfl, rfl⟩
  | cons c conns ih =>
    intro A i hi0 hin
    have hstepn := addSwallow_numNodes A c
    have hstepr := addSwallow_rowOf A c i hi0 hin
    have hrec := ih (addSwallow A c) i hi0 (by rw [hstepn]; exact hin)
    refine ⟨by rw [List.foldl_cons, hrec.1, hstepn], ?_⟩
    rw [List.foldl_cons, hrec.2, hstepr]
    by_cases hci : c.1 = i
    · rw [if_pos hci]
      simp only [List.filterMap_cons, if_pos hci]
      rw [List.foldl_cons]
    · rw [if_neg hci]
      simp only [List.filterMap_cons, if_neg hci]

/-- C8: (a) on every list, AddAdjacent(i, j) with a `j` already adjacent
to the valid node `i` signals FailedAssertion (the check precedes any
mutation, so the container is unchanged); (b) bulk construction from a
connection list never fails — pairs whose insertion raises are silently
dropped — and the resulting row of each valid node is exactly the distinct
adjacents of its pairs in first-occurrence order. -/
theorem claim_C8_duplicate_handling :
    (∀ (A : AdjacencyList) (i j : ℤ), 0 ≤ i → i < numNodesZ A →
      j ∈ rowOf A i → addAdjacent A i j = .error .assertFail) ∧
    (∀ (conns : List (ℤ × ℤ)) (i : ℤ), 0 ≤ i →
      i < numNodesZ (fromConnections conns) →
      rowOf (fromConnections conns) i =
        firstOccur (conns.filterMap
          (fun c => if c.1 = i then some c.2 else none))) := by
  constructor
  · intro A i j hi0 hin hmem
    unfold addAdjacent
    rw [if_pos ⟨hi0, hin⟩, if_pos hmem]
  · intro conns i hi0 hin
    simp only [fromConnections] at hin ⊢
    by_cases hz : conns.foldl (fun m c => max m (c.1 + 1)) 0 = 0
    · rw [if_pos hz] at hin
      unfold numNodesZ at hin
      simp at hin
      omega
    · rw [if_neg hz] at hin ⊢
      rw [foldl_addSwallow_numNodes] at hin
      refine Eq.trans ((foldl_addSwallow_inv conns _ i hi0 hin).2) ?_
      unfold firstOccur
      congr 1
      exact getD_replicate_nil _ _

/-- Witness for C8: a duplicate AddAdjacent on the list built from
`[(0, 2)]` raises, and bulk construction from `[(0, 2), (0, 2), (0, 3)]`
keeps the distinct adjacents of node 0 in first-occurrence order. -/
theorem claim_C8_witness :
    addAdjacent (fromConnections [(0, 2)]) 0 2 = .error .assertFail ∧
    rowOf (fromConnections [(0, 2), (0, 2), (0, 3)]) 0 =
      firstOccur (([(0, 2), (0, 2), (0, 3)] : List (ℤ × ℤ)).filterMap
        (fun c => if c.1 = 0 then some c.2 else none)) :=
  ⟨claim_C8_duplicate_handling.1 (fromConnections [(0, 2)]) 0 2 (by decide)
      (by decide) (by decide),
    claim_C8_duplicate_handling.2 [(0, 2), (0, 2), (0, 3)] 0 (by decide)
      (by decide)⟩

theorem map_getD_range {α : Type} (d : α) :
    ∀ (l : List α), (List.range l.length).map (fun j => l.getD j d) = l := by
  intro l
  induction l with
  | nil => rfl
  | cons a l ih =>
    rw [List.length_cons, List.range_succ_eq_map, List.map_cons, List.map_map]
    show a :: _ = a :: l
    congr 1

theorem getD_map_range {α : Type} (d : α) :
    ∀ (n : ℕ) (f : ℕ → α) (i : ℕ), i < n →
      ((List.range n).map f).getD i d = f i := by
  intro n
  induction n with
  | zero => intro f i hi; omega
  | succ n ih =>
    intro f i hi
    rw [List.range_succ_eq_map, List.map_cons, List.map_map]
    cases i with
    | zero => rfl
    | succ i =>
      show ((List.range n).map (f ∘ Nat.succ)).getD i d = f (i + 1)
      exact ih (f ∘ Nat.succ) i (by omega)

theorem lenSumZ_succ (S : AdjSource) (i : ℕ) :
    lenSumZ S (i + 1) = lenSumZ S i + S.numAdjacents (i : ℤ) := by
  unfold lenSumZ
  rw [List.range_succ, List.map_append, List.sum_append]
  simp

theorem offs_succ (rows : List (List ℤ)) (i : ℕ) :
    offs rows (i + 1) = offs rows i + (rows.getD i []).length := by
  unfold offs
  rw [List.range_succ, List.map_append, List.sum_append]
  simp

theorem offs_cons_succ (r : List ℤ) (rs : List (List ℤ)) (i : ℕ) :
    offs (r :: rs) (i + 1) = r.length + offs rs i := by
  unfold offs
  rw [List.range_succ_eq_map, List.map_cons, List.map_map, List.sum_cons]
  rfl

theorem flatten_getD :
    ∀ (rows : List (List ℤ)) (i jj : ℕ), i < rows.length →
      jj < (rows.getD i []).length →
      rows.flatten.getD (offs rows i + jj) 0 = (rows.getD i []).getD jj 0 := by
  intro rows
  induction rows with
  | nil => intro i jj hi; simp at hi
  | cons r rs ih =>
    intro i jj hi hj
    cases i with
    | zero =>
      show (r ++ rs.flatten).getD (offs (r :: rs) 0 + jj) 0 = r.getD jj 0
      have h0 : offs (r :: rs) 0 + jj = jj := by
        unfold offs
        simp
      rw [h0]
      exact CutHeap.getD_append_left 0 r rs.flatten jj hj
    | succ i =>
      show (r ++ rs.flatten).getD (offs (r :: rs) (i + 1) + jj) 0 =
        (rs.getD i []).getD jj 0
      have h1 : offs (r :: rs) (i + 1) + jj = r.length + (offs rs i + jj) := by
        rw [offs_cons_succ]
        omega
      rw [h1, CutHeap.getD_append_right 0 r rs.flatten (offs rs i + jj)]
      exact ih i jj (by simpa using hi) hj

theorem lenSumZ_asSource (M : AdjacencyList) :
    ∀ i : ℕ, lenSumZ (asSource M) i = ((offs M.adj i : ℕ) : ℤ) := by
  intro i
  induction i with
  | zero => rfl
  | succ i ih =>
    rw [lenSumZ_succ, offs_succ, ih]
    have hrow : rowOf M (i : ℤ) = M.adj.getD i [] := by
      unfold rowOf
      congr 1
    show ((offs M.adj i : ℕ) : ℤ) + ((rowOf M (i : ℤ)).length : ℤ) = _
    rw [hrow]
    push_cast
    ring

theorem walkRow_asSource (M : AdjacencyList) (i : ℕ) :
    walkRow (asSource M) (i : ℤ) = M.adj.getD i [] := by
  unfold walkRow
  have hrow : rowOf M (i : ℤ) = M.adj.getD i [] := by
    unfold rowOf
    congr 1
  have hcnt : ((asSource M).numAdjacents (i : ℤ)).toNat = (M.adj.getD i []).length := by
    show (((rowOf M (i : ℤ)).length : ℤ)).toNat = _
    rw [hrow]
    omega
  have hget : ∀ j : ℕ, (asSource M).getAdjacent (i : ℤ) (j : ℤ) =
      (M.adj.getD i []).getD j 0 := by
    intro j
    show (rowOf M (i : ℤ)).getD ((j : ℤ)).toNat 0 = _
    rw [hrow]
    congr 1
  rw [hcnt]
  calc (List.range (M.adj.getD i []).length).map
        (fun j : ℕ => (asSource M).getAdjacent (i : ℤ) (j : ℤ))
      = (List.range (M.adj.getD i []).length).map
        (fun j : ℕ => (M.adj.getD i []).getD j 0) := by
        apply List.map_congr_left
        intro j _
        exact hget j
    _ = M.adj.getD i [] := map_getD_range 0 _

theorem roundTrip_adj (M : AdjacencyList) : (roundTrip M).adj = M.adj := by
  set n := M.adj.length with hn
  have hSn : (asSource M).numNodes.toNat = n := by
    show ((n : ℤ)).toNat = n
    omega
  set C := compatOfSource (asSource M) with hC
  have hCidx : C.idx = (List.range (n + 1)).map (fun i => lenSumZ (asSource M) i) := by
    rw [hC]
    unfold compatOfSource
    rw [hSn]
  have hCadj : C.adj = M.adj.flatten := by
    rw [hC]
    show ((List.range (asSource M).numNodes.toNat).map
      (fun i : ℕ => walkRow (asSource M) (i : ℤ))).flatten = M.adj.flatten
    rw [hSn]
    congr 1
    calc (List.range n).map (fun i : ℕ => walkRow (asSource M) (i : ℤ))
        = (List.range n).map (fun i : ℕ => M.adj.getD i []) := by
          apply List.map_congr_left
          intro i _
          exact walkRow_asSource M i
      _ = M.adj := map_getD_range [] M.adj
  have hCidxLen : C.idx.length = n + 1 := by
    rw [hCidx]
    simp
  have hCidxD : ∀ i : ℕ, i < n + 1 → C.idx.getD i 0 = lenSumZ (asSource M) i := by
    intro i hi
    rw [hCidx]
    exact getD_map_range 0 (n + 1) _ i hi
  have hSCn : (compatAsSource C).numNodes.toNat = n := by
    show (((C.idx.length : ℤ)) - 1).toNat = n
    rw [hCidxLen]
    omega
  have hSCcnt : ∀ i : ℕ, i < n →
      ((compatAsSource C).numAdjacents (i : ℤ)).toNat = (M.adj.getD i []).length := by
    intro i hi
    show (C.idx.getD (((i : ℤ)).toNat + 1) 0 - C.idx.getD ((i : ℤ)).toNat 0).toNat = _
    have hit : ((i : ℤ)).toNat = i := by omega
    rw [hit, hCidxD (i + 1) (by omega), hCidxD i (by omega), lenSumZ_succ,
        lenSumZ_asSource]
    have : (asSource M).numAdjacents (i : ℤ) = ((M.adj.getD i []).length : ℤ) := by
      show ((rowOf M (i : ℤ)).length : ℤ) = _
      unfold rowOf
      congr 2
    rw [this]
    omega
  have hSCget : ∀ i jj : ℕ, i < n → jj < (M.adj.getD i []).length →
      (compatAsSource C).getAdjacent (i : ℤ) (jj : ℤ) = (M.adj.getD i []).getD jj 0 := by
    intro i jj hi hj
    show C.adj.getD ((C.idx.getD ((i : ℤ)).toNat 0 + (jj : ℤ))).toNat 0 = _
    have hit : ((i : ℤ)).toNat = i := by omega
    rw [hit, hCidxD i (by omega), lenSumZ_asSource, hCadj]
    have htn : ((((offs M.adj i : ℕ)) : ℤ) + (jj : ℤ)).toNat = offs M.adj i + jj := by
      omega
    rw [htn]
    exact flatten_getD M.adj i jj (by rw [← hn]; exact hi) hj
  have hwalkSC : ∀ i : ℕ, i < n →
      walkRow (compatAsSource C) (i : ℤ) = M.adj.getD i [] := by
    intro i hi
    unfold walkRow
    rw [hSCcnt i hi]
    calc (List.range (M.adj.getD i []).length).map
          (fun j : ℕ => (compatAsSource C).getAdjacent (i : ℤ) (j : ℤ))
        = (List.range (M.adj.getD i []).length).map
          (fun j : ℕ => (M.adj.getD i []).getD j 0) := by
          apply List.map_congr_left
          intro j hjmem
          exact hSCget i j hi (List.mem_range.mp hjmem)
      _ = M.adj.getD i [] := map_getD_range 0 _
  show (ofSource (compatAsSource C)).adj = M.adj
  unfold ofSource genericFill
  rw [hSCn]
  calc (List.range n).map
        (fun i : ℕ => (resizeRows [] n).getD i [] ++ walkRow (compatAsSource C) (i : ℤ))
      = (List.range n).map (fun i : ℕ => M.adj.getD i []) := by
        apply List.map_congr_left
        intro i hmem
        have hi : i < n := List.mem_range.mp hmem
        have hres : (resizeRows [] n).getD i [] = [] := by
          unfold resizeRows
          show ((List.take n []) ++ List.replicate (n - List.length []) []).getD i [] = []
          rw [List.take_nil, List.nil_append]
          exact getD_replicate_nil _ _
        rw [hres, List.nil_append]
        exact hwalkSC i hi
    _ = M.adj := map_getD_range [] M.adj

/-- C6: converting a mutable cut::AdjacencyList to a
cut::CompatAdjacencyList through the abstract capability and back yields
a container with the same NumNodes and, for every node and position,
identical NumAdjacents and GetAdjacent answers (identical order-preserved
adjacent rows). -/
theorem claim_C6_roundTrip (M : AdjacencyList) :
    numNodesZ (roundTrip M) = numNodesZ M ∧
    (∀ i : ℤ, numAdjacentsE (roundTrip M) i = numAdjacentsE M i) ∧
    (∀ i idx : ℤ, getAdjacentE (roundTrip M) i idx = getAdjacentE M i idx) := by
  have h := roundTrip_adj M
  refine ⟨?_, ?_, ?_⟩
  · unfold numNodesZ
    rw [h]
  · intro i
    unfold numAdjacentsE numNodesZ rowOf
    rw [h]
  · intro i idx
    unfold getAdjacentE numNodesZ rowOf
    rw [h]

end CutAdj
